import Mathlib

/-!
# Polling: a cooperative task scheduler for Arduino

Shallow embedding of `Polling.h` / `Polling.cpp`.

* `unsigned long` and `long` are the 32-bit types of the Arduino targets: values are
  naturals below `2 ^ 32`, `+=` wraps modulo `2 ^ 32`, the conversion to `long` is the
  two's complement reading.
* `byte` is a natural below `256`; `_size--` wraps modulo `256`.
* Task descriptors are owned by the sketch and referenced by pointer: `Mem` is the
  sketch's task variables, a `_task_ptr` is an address in it.
* A `loopFunction` is a function address; `Code` says what the function at each address
  does to the task variables (the source lets `fLoop()` change task values).
* `millis()` is the argument `now`; it is constant during one call.
* The `while` loop of `_adjustTime` runs on fuel; running out of fuel is the fault
  `Fault.outOfFuel`.
* Every call reports the list of callbacks it invoked next to its outcome, so the list is
  known also when the call does not return.
* The build with `POLL_DEBUG` is the one embedded; without it the field `_minGap` does not
  exist and nothing else differs.
* `qsort` is the C library's; it is modelled by an insertion sort driven by the comparator.
-/

namespace PollingLib

/-- Task status (`taskStatus_t`). -/
inductive taskStatus_t where
  | WAITING
  | RUNNING
  | ONTIME
  | ONESHOOT
  | DELETED
  deriving DecidableEq, Repr

/-- Address of a `void loop()` function. -/
abbrev loopFunction := Nat

/-- Type for task definitions (`struct task`). -/
structure task where
  startTime : Nat
  period : Nat
  fLoop : loopFunction
  status : taskStatus_t
  deriving DecidableEq, Repr

/-- Internal used task pointer type: the address of a task variable of the sketch. -/
abbrev _task_ptr := Nat

/-- The task variables of the sketch. -/
abbrev Mem := _task_ptr → task

/-- What the function at each address does to the task variables when it is called. -/
abbrev Code := loopFunction → Mem → Mem

/-- Store through a task pointer. -/
def write (mem : Mem) (p : _task_ptr) (t : task) : Mem :=
  fun q => if q = p then t else mem q

/-- Number of values of an `unsigned long`. -/
def ULONG : Nat := 2 ^ 32

/-- Conversion of an `unsigned long` to `long` (two's complement). -/
def toLong (n : Nat) : Int :=
  if n % ULONG < 2 ^ 31 then ((n % ULONG : Nat) : Int) else ((n % ULONG : Nat) : Int) - 2 ^ 32

/-- Conversion of a `long` to `unsigned long`. -/
def toULong (i : Int) : Nat := (i % 2 ^ 32).toNat

/-- What stops a call from returning a value. -/
inductive Fault where
  | outOfFuel
  | outOfBounds
  | wildPointer
  deriving DecidableEq, Repr

/-- The private data of a `Polling` object. A slot of `_tasks` that was never written
holds `none`. `_minGap` is the field of the `POLL_DEBUG` build. -/
structure Polling where
  _tasks : List (Option _task_ptr)
  _size : Nat
  _max : Nat
  _minGap : Int
  deriving DecidableEq, Repr

/-- One invoked callback: the task whose `fLoop` was called, and the function called. -/
abbrev Call := _task_ptr × loopFunction

/-- Constructor `Polling::Polling(byte nTask)`. -/
def Polling.new (nTask : Nat) : Polling :=
  { _tasks := List.replicate (nTask % 256) none
    _size := 0
    _max := nTask % 256
    _minGap := -100000 }

/-- Return number of tasks (`getSize`). -/
def getSize (self : Polling) : Int := (self._size : Int)

/-- The loop of `_adjustTime` on a task value: `while (startTime <= millis()) startTime += period`. -/
def _adjustTime (now : Nat) : Nat → task → Option task
  | 0, _ => none
  | fuel + 1, aTask =>
    if aTask.startTime ≤ now then
      _adjustTime now fuel { aTask with startTime := (aTask.startTime + aTask.period) % ULONG }
    else some aTask

/-- The call `_adjustTime(aTask)` on a task variable. -/
def adjustAt (fuel now : Nat) (mem : Mem) (p : _task_ptr) : Except Fault Mem :=
  match _adjustTime now fuel (mem p) with
  | none => .error .outOfFuel
  | some t => .ok (write mem p t)

/-- Comparator `_compareTask`: ascending `startTime` order, never `0`. -/
def _compareTask (mem : Mem) (a b : _task_ptr) : Int :=
  if (mem a).startTime > (mem b).startTime then 1 else -1

/-- Modelled from the spec: the C library `qsort`, which is not part of the sources
("sorts the registered references ascending", "ties broken arbitrarily"). It is an
insertion sort that asks the comparator only whether its result is positive. -/
def qsort {α : Type} (compar : α → α → Int) (base : List α) : List α :=
  base.insertionSort (fun a b => compar a b ≤ 0)

/-- The pointers in the first `n` slots, when all of them were written. -/
def slots : List (Option _task_ptr) → Option (List _task_ptr)
  | [] => some []
  | none :: _ => none
  | some p :: rest => (slots rest).map (fun ps => p :: ps)

/-- The call `qsort(_tasks, _size, sizeof(_task_ptr), _compareTask)`. -/
def sortTasks (self : Polling) (mem : Mem) : Except Fault Polling :=
  if self._size < 2 then .ok self
  else if self._tasks.length < self._size then .error .outOfBounds
  else
    match slots (self._tasks.take self._size) with
    | none => .error .wildPointer
    | some ps =>
      .ok { self with
            _tasks := (qsort (_compareTask mem) ps).map some ++ self._tasks.drop self._size }

/-- The pointer read by `_tasks[0]->`. -/
def head (self : Polling) : Except Fault _task_ptr :=
  match self._tasks with
  | [] => .error .outOfBounds
  | none :: _ => .error .wildPointer
  | some p :: _ => .ok p

/-- Second step `add(task& aTask)`: adds a task to the queue. -/
def add (fuel now : Nat) (self : Polling) (mem : Mem) (aTask : _task_ptr) :
    Except Fault (Polling × Mem) :=
  if self._size < self._max then
    if self._size < self._tasks.length then
      match adjustAt fuel now mem aTask with
      | .error e => .error e
      | .ok mem' =>
        .ok ({ self with
               _tasks := self._tasks.set self._size (some aTask)
               _size := (self._size + 1) % 256 }, mem')
    else .error .outOfBounds
  else .ok (self, mem)

/-- Third step `begin()`: starting the polling engine. -/
def begin (self : Polling) (mem : Mem) : Except Fault Polling :=
  sortTasks self mem

/-- The value of
`(startTime > millis()) ? startTime - millis() : -long(millis() - startTime)`
assigned to the `long tnext`. -/
def tnextOf (startTime now : Nat) : Int :=
  if startTime > now then toLong (startTime - now)
  else toLong (toULong (-(toLong (now - startTime))))

/-- What a returning `loopPolling()` leaves: the object, the task variables and the
returned value. -/
structure PollOut where
  self : Polling
  mem : Mem
  tnext : Int

/-- The last statements of `loopPolling`: `tnext = ...; return (tnext)`. -/
def pollReturn (now : Nat) (self : Polling) (mem : Mem) : Except Fault PollOut :=
  match head self with
  | .error e => .error e
  | .ok h => .ok { self := self, mem := mem, tnext := tnextOf (mem h).startTime now }

/-- The statements of `loopPolling` after the `switch`: the `qsort`, the `POLL_DEBUG`
block, and the return. -/
def pollSort (now : Nat) (self : Polling) (mem : Mem) : Except Fault PollOut :=
  match sortTasks self mem with
  | .error e => .error e
  | .ok self1 =>
    match head self1 with
    | .error e => .error e
    | .ok h =>
      let tnext := tnextOf (mem h).startTime now
      let self2 := { self1 with
        _minGap := if self1._minGap = -100000 then tnext
                   else if tnext < self1._minGap then tnext else self1._minGap }
      pollReturn now self2 mem

/-- The case `WAITING` of the `switch`, reached directly or by falling through:
`_adjustTime(* _tasks[0]); break;`. -/
def pollAdjust (fuel now : Nat) (self : Polling) (mem : Mem) : Except Fault PollOut :=
  match head self with
  | .error e => .error e
  | .ok h =>
    match adjustAt fuel now mem h with
    | .error e => .error e
    | .ok mem' => pollSort now self mem'

/-- The case `DELETED` of the `switch`: `_size--; _tasks[0] = _tasks[_size];`. -/
def pollDelete (now : Nat) (self : Polling) (mem : Mem) : Except Fault PollOut :=
  let size' := (self._size + 255) % 256
  match self._tasks[size']? with
  | none => .error .outOfBounds
  | some slot =>
    pollSort now { self with _size := size', _tasks := self._tasks.set 0 slot } mem

/-- The function `loopPolling()`, called at clock value `now`: the callbacks it invoked,
and its outcome. The `default:` branch of the `switch` is not reached by the five values of
`taskStatus_t`. -/
def loopPolling (code : Code) (fuel now : Nat) (self : Polling) (mem : Mem) :
    List Call × Except Fault PollOut :=
  match head self with
  | .error e => ([], .error e)
  | .ok h =>
    if (mem h).startTime ≤ now then
      match (mem h).status with
      | .ONESHOOT =>
        let mem1 := write mem h { mem h with status := .WAITING }
        ([(h, (mem1 h).fLoop)], pollAdjust fuel now self (code (mem1 h).fLoop mem1))
      | .RUNNING => ([(h, (mem h).fLoop)], pollAdjust fuel now self (code (mem h).fLoop mem))
      | .ONTIME => ([(h, (mem h).fLoop)], pollAdjust fuel now self (code (mem h).fLoop mem))
      | .WAITING => ([], pollAdjust fuel now self mem)
      | .DELETED => ([], pollDelete now self mem)
    else ([], pollReturn now self mem)

/-- The function `getMinGap()` of the `POLL_DEBUG` build. -/
def getMinGap (self : Polling) : Int × Polling :=
  (self._minGap, { self with _minGap := -100000 })

/-- The tracked task references: the pointers at indexes `0 .. _size - 1`, when all these
slots hold one. -/
def active (self : Polling) : Option (List _task_ptr) :=
  slots (self._tasks.take self._size)

/-- Ordered ascending by `startTime`. -/
def ascending (mem : Mem) (ps : List _task_ptr) : Prop :=
  List.Sorted (fun a b => (mem a).startTime ≤ (mem b).startTime) ps

/-- The states of an object built by the constructor: the block has `_max` slots, the
count is at most `_max`, both are bytes, and the first `_size` slots were written. -/
def WF (self : Polling) : Prop :=
  self._tasks.length = self._max ∧ self._size ≤ self._max ∧ self._max < 256 ∧
    (active self).isSome = true

instance (mem : Mem) (ps : List _task_ptr) : Decidable (ascending mem ps) := by
  unfold ascending
  infer_instance

instance (self : Polling) : Decidable (WF self) := by
  unfold WF
  infer_instance

/-- Number of additions the loop of `_adjustTime` makes when nothing wraps. -/
def skips (now startTime period : Nat) : Nat := (now + period - startTime) / period

/-- A sequence of `add` calls, each with the task it registers and the clock value of the
call. -/
def addAll (fuel : Nat) :
    List (_task_ptr × Nat) → Polling → Mem → Except Fault (Polling × Mem)
  | [], self, mem => .ok (self, mem)
  | r :: rest, self, mem =>
    match add fuel r.2 self mem r.1 with
    | .error e => .error e
    | .ok sm => addAll fuel rest sm.1 sm.2

/-- The task variables when the callback of a due head `h` has returned (for a head whose
status runs no callback: the task variables as they are). -/
def called (code : Code) (mem : Mem) (h : _task_ptr) : Mem :=
  match (mem h).status with
  | .ONESHOOT => code (mem h).fLoop (write mem h { mem h with status := .WAITING })
  | .RUNNING => code (mem h).fLoop mem
  | .ONTIME => code (mem h).fLoop mem
  | .WAITING => mem
  | .DELETED => mem

/-- A sequence of `loopPolling()` calls at the given clock values: for each call made, the
callbacks it invoked and the value it returned (`none` when it did not return, which ends
the sequence). -/
def pollLog (code : Code) (fuel : Nat) :
    List Nat → Polling → Mem → List (List Call × Option Int)
  | [], _, _ => []
  | now :: rest, self, mem =>
    match loopPolling code fuel now self mem with
    | (cs, .error _) => [(cs, none)]
    | (cs, .ok r) => (cs, some r.tnext) :: pollLog code fuel rest r.self r.mem

/-- The clock values `t0, t0 + P, t0 + 2 * P, ...` of `n` polls. -/
def ticks (P : Nat) : Nat → Nat → List Nat
  | 0, _ => []
  | n + 1, t0 => t0 :: ticks P n (t0 + P)

/-- Every callback leaves the task variables as they are. -/
def idle : Code := fun _ m => m

/-- The tasks of the sketch of the concrete scenario: A at address 0, B at address 1. -/
def demoMem : Mem := fun q =>
  if q = 0 then ⟨0, 1000, 0, .RUNNING⟩
  else if q = 1 then ⟨500, 1000, 1, .RUNNING⟩
  else ⟨7, 0, 2, .WAITING⟩

/-- A callback that marks the task at address 0 as deleted: `task0.status = DELETED;`. -/
def deleter : Code := fun _ m => write m 0 { m 0 with status := .DELETED }

/-- A sketch whose task variables all hold `{1000, 1000, f7, RUNNING}`. -/
def soloMem : Mem := fun _ => ⟨1000, 1000, 7, .RUNNING⟩

/-- A sketch whose task variables all hold `{2147483648, 1000, f7, RUNNING}`. -/
def farMem : Mem := fun _ => ⟨2147483648, 1000, 7, .RUNNING⟩

/-- A sketch with a deleted task at address 0 and running tasks elsewhere. -/
def wasteMem : Mem := fun q =>
  if q = 0 then ⟨100, 1000, 0, .DELETED⟩ else ⟨200 + q, 1000, q, .RUNNING⟩

/-- How many times the callback of the task `p` is invoked in a list of callbacks. -/
def callsTo (p : _task_ptr) (cs : List Call) : Nat :=
  (cs.filter (fun c => c.1 = p)).length

/-- How many times the callback of the task `p` was invoked in a sequence of polls. -/
def invocations (p : _task_ptr) (log : List (List Call × Option Int)) : Nat :=
  (log.map (fun e => callsTo p e.1)).sum

/-- A sketch with a one-shot task at address 0 and a running task elsewhere. -/
def shotMem : Mem := fun q =>
  if q = 0 then ⟨100, 50, 0, .ONESHOOT⟩ else ⟨120, 50, 1, .RUNNING⟩

/-- A callback that postpones the task at address 0: `task0.startTime = 1000000;`. -/
def postponer : Code := fun _ m => write m 0 { m 0 with startTime := 1000000 }

/-- A sketch whose second task has the earlier start: `{1000, 1000, f0, RUNNING}` at
address 0 and `{500, 1000, f1, RUNNING}` elsewhere. -/
def lateMem : Mem := fun q =>
  if q = 0 then ⟨1000, 1000, 0, .RUNNING⟩ else ⟨500, 1000, 1, .RUNNING⟩

/-- The reads `loopPolling()` makes in the task table, in program order, each with the
count `_size` at the time of the read: `_tasks[0]` for the due test; then, for a due head,
`_tasks[0]` for `_adjustTime` or, in the case `DELETED`, `_tasks[_size]` after `_size--`;
and last `_tasks[0]` for the returned value. A read outside the block ends the list, the
reads after `_adjustTime` are those made when it returns, and the reads `qsort` makes are
left out. -/
def tableReads (now : Nat) (self : Polling) (mem : Mem) : List (Nat × Nat) :=
  (0, self._size) ::
    match head self with
    | .error _ => []
    | .ok h =>
      if (mem h).startTime ≤ now then
        match (mem h).status with
        | .DELETED =>
          let size' := (self._size + 255) % 256
          (size', size') :: (if size' < self._tasks.length then [(0, size')] else [])
        | .ONESHOOT => [(0, self._size), (0, self._size)]
        | .RUNNING => [(0, self._size), (0, self._size)]
        | .ONTIME => [(0, self._size), (0, self._size)]
        | .WAITING => [(0, self._size), (0, self._size)]
      else [(0, self._size)]

/-- Whether the head is due at clock value `now`: `_tasks[0]->startTime <= millis()`. -/
def headDue (now : Nat) (self : Polling) (mem : Mem) : Bool :=
  match head self with
  | .ok h => decide ((mem h).startTime ≤ now)
  | .error _ => false

/-- The update of `_minGap` by a value `tnext`:
`(_minGap == -100000L) ? tnext : ((tnext < _minGap) ? tnext : _minGap)`. -/
def track (minGap tnext : Int) : Int :=
  if minGap = -100000 then tnext else if tnext < minGap then tnext else minGap

/-- A sequence of `loopPolling()` calls at the given clock values that all return: the
object they leave, and the values returned by those of them whose head was due (`none`
when a call does not return). -/
def dueGaps (code : Code) (fuel : Nat) :
    List Nat → Polling → Mem → Option (Polling × List Int)
  | [], self, _ => some (self, [])
  | now :: rest, self, mem =>
    match (loopPolling code fuel now self mem).2 with
    | .error _ => none
    | .ok r =>
      match dueGaps code fuel rest r.self r.mem with
      | none => none
      | some sv => some (sv.1, if headDue now self mem then r.tnext :: sv.2 else sv.2)

/-- Callbacks that put every task but their own to rest: the function at address `f` sets
`status = WAITING` in every task variable except the one at address `f`. -/
def hush : Code := fun f m q => if q = f then m q else { m q with status := .WAITING }

/-- A sketch whose task at address `q` is `{1000, 1000, fq, RUNNING}`. -/
def twinMem : Mem := fun q => ⟨1000, 1000, q, .RUNNING⟩

/-- A sketch whose task variables all hold `{4294967295, 1000, f7, RUNNING}`. -/
def lastMem : Mem := fun _ => ⟨4294967295, 1000, 7, .RUNNING⟩

/-- A sketch whose task variables all hold `{0, 0, f7, RUNNING}`: due and with period 0. -/
def stuckMem : Mem := fun _ => ⟨0, 0, 7, .RUNNING⟩

end PollingLib

namespace PollingLib

/-! ## Arithmetic of the fast-forward -/

theorem skips_of_gt {now s p : Nat} (hp : 0 < p) (h : now < s) : skips now s p = 0 := by
  unfold skips
  exact Nat.div_eq_of_lt (by omega)

theorem skips_of_le {now s p : Nat} (hp : 0 < p) (h : s ≤ now) :
    skips now s p = skips now (s + p) p + 1 := by
  unfold skips
  have h1 : now + p - s = (now + p - (s + p)) + p := by omega
  rw [h1, Nat.add_div_right _ hp]

theorem skips_gt {now s p : Nat} (hp : 0 < p) : now < s + skips now s p * p := by
  unfold skips
  by_cases h : now < s
  · exact Nat.lt_of_lt_of_le h (Nat.le_add_right _ _)
  · have h1 := Nat.div_add_mod (now + p - s) p
    have h2 := Nat.mod_lt (now + p - s) hp
    have h3 : (now + p - s) / p * p = p * ((now + p - s) / p) := Nat.mul_comm _ _
    omega

theorem skips_min {now s p : Nat} (hp : 0 < p) (j : Nat) (h : now < s + j * p) :
    skips now s p ≤ j := by
  unfold skips
  by_cases hs : now < s
  · rw [Nat.div_eq_of_lt (by omega)]; exact Nat.zero_le _
  · have h1 : now + p - s < (j + 1) * p := by
      rw [Nat.add_mul]; omega
    have := Nat.div_lt_of_lt_mul (by rw [Nat.mul_comm]; exact h1 : now + p - s < p * (j + 1))
    omega

theorem skips_le {now s p : Nat} (hp : 0 < p) (h : s ≤ now) :
    s + skips now s p * p ≤ now + p := by
  unfold skips
  have h1 := Nat.div_mul_le_self (now + p - s) p
  omega

/-- With a positive period and no wrap-around of the sums the loop of `_adjustTime` ends,
having added the period `skips` times. -/
theorem adjustTime_eq (now : Nat) : ∀ (fuel : Nat) (t : task), 0 < t.period →
    (t.startTime ≤ now → t.startTime + skips now t.startTime t.period * t.period < ULONG) →
    now + 2 ≤ fuel + t.startTime → 0 < fuel →
    _adjustTime now fuel t =
      some { t with startTime := t.startTime + skips now t.startTime t.period * t.period } := by
  intro fuel
  induction fuel with
  | zero => intro t _ _ _ h; exact absurd h (Nat.lt_irrefl 0)
  | succ n ih =>
    intro t hp hov hf _
    unfold _adjustTime
    by_cases hs : t.startTime ≤ now
    · rw [if_pos hs]
      have hk := skips_of_le hp hs
      have hov1 := hov hs
      rw [hk, Nat.add_mul, Nat.one_mul] at hov1
      have hm : (t.startTime + t.period) % ULONG = t.startTime + t.period :=
        Nat.mod_eq_of_lt (by omega)
      rw [hm]
      have key := ih { t with startTime := t.startTime + t.period } hp
        (fun _ => by simp only; omega) (by simp only; omega) (by omega)
      rw [key]
      simp only [hk, Nat.add_mul, Nat.one_mul]
      congr 2
      omega
    · rw [if_neg hs, skips_of_gt hp (by omega)]
      simp

theorem no_wrap_of_le {now s p : Nat} (hp : 0 < p) (hov : now + p < ULONG) :
    s ≤ now → s + skips now s p * p < ULONG :=
  fun h => Nat.lt_of_le_of_lt (skips_le hp h) hov

/-- The loop of `_adjustTime` changes nothing but `startTime`. -/
theorem adjustTime_fields (now : Nat) : ∀ (fuel : Nat) (t t' : task),
    _adjustTime now fuel t = some t' →
    t'.period = t.period ∧ t'.fLoop = t.fLoop ∧ t'.status = t.status ∧ now < t'.startTime := by
  intro fuel
  induction fuel with
  | zero => intro t t' h; simp [_adjustTime] at h
  | succ n ih =>
    intro t t' h
    unfold _adjustTime at h
    by_cases hs : t.startTime ≤ now
    · rw [if_pos hs] at h
      have := ih _ _ h
      simpa using this
    · rw [if_neg hs] at h
      cases h
      exact ⟨rfl, rfl, rfl, by omega⟩

/-! ## The task table -/

theorem slots_map_some (ps : List _task_ptr) : slots (ps.map some) = some ps := by
  induction ps with
  | nil => rfl
  | cons p ps ih => simp [slots, ih]

theorem slots_eq_some : ∀ {l : List (Option _task_ptr)} {ps : List _task_ptr},
    slots l = some ps → l = ps.map some := by
  intro l
  induction l with
  | nil => intro ps h; simp [slots] at h; subst h; rfl
  | cons x l ih =>
    intro ps h
    cases x with
    | none => simp [slots] at h
    | some p =>
      simp only [slots, Option.map_eq_some'] at h
      obtain ⟨qs, hq, rfl⟩ := h
      rw [ih hq]; rfl

theorem active_eq_some {self : Polling} {ps : List _task_ptr} :
    active self = some ps ↔ self._tasks.take self._size = ps.map some := by
  unfold active
  constructor
  · exact slots_eq_some
  · intro h; rw [h]; exact slots_map_some ps

theorem active_length {self : Polling} {ps : List _task_ptr} (hwf : WF self)
    (h : active self = some ps) : ps.length = self._size := by
  have h1 := congrArg List.length (active_eq_some.mp h)
  obtain ⟨hl, hs, _, _⟩ := hwf
  simp only [List.length_take, List.length_map] at h1
  omega

theorem WF_new (nTask : Nat) : WF (Polling.new nTask) := by
  refine ⟨by simp [Polling.new], by simp [Polling.new], ?_, ?_⟩
  · exact Nat.mod_lt _ (by decide)
  · simp [active, Polling.new, slots]

/-! ## The sort -/

theorem compareTask_le (mem : Mem) (a b : _task_ptr) :
    _compareTask mem a b ≤ 0 ↔ (mem a).startTime ≤ (mem b).startTime := by
  unfold _compareTask
  split <;> omega

theorem qsort_perm (mem : Mem) (ps : List _task_ptr) :
    (qsort (_compareTask mem) ps).Perm ps :=
  List.perm_insertionSort _ ps

theorem qsort_ascending (mem : Mem) (ps : List _task_ptr) :
    ascending mem (qsort (_compareTask mem) ps) := by
  haveI : IsTotal _task_ptr (fun a b => _compareTask mem a b ≤ 0) :=
    ⟨fun a b => by simp only [compareTask_le]; exact Nat.le_total _ _⟩
  haveI : IsTrans _task_ptr (fun a b => _compareTask mem a b ≤ 0) :=
    ⟨fun a b c => by simp only [compareTask_le]; exact Nat.le_trans⟩
  have h := List.sorted_insertionSort (fun a b => _compareTask mem a b ≤ 0) ps
  exact List.Pairwise.imp (fun {a b} hab => (compareTask_le mem a b).mp hab) h

theorem qsort_short {α : Type} (compar : α → α → Int) (ps : List α) (h : ps.length < 2) :
    qsort compar ps = ps := by
  match ps, h with
  | [], _ => rfl
  | [a], _ => rfl

/-- On a well-formed table `qsort` does not fault: it leaves the tracked references
sorted by the comparator and everything else as it was. -/
theorem sortTasks_ok {self : Polling} (mem : Mem) {ps : List _task_ptr} (hwf : WF self)
    (ha : active self = some ps) :
    ∃ self', sortTasks self mem = .ok self' ∧ self'._size = self._size ∧
      self'._max = self._max ∧ active self' = some (qsort (_compareTask mem) ps) ∧
      WF self' := by
  have hlen := active_length hwf ha
  obtain ⟨hl, hs, hm, hsome⟩ := hwf
  unfold sortTasks
  by_cases h2 : self._size < 2
  · rw [if_pos h2]
    refine ⟨self, rfl, rfl, rfl, ?_, ⟨hl, hs, hm, hsome⟩⟩
    rw [qsort_short _ ps (by omega)]; exact ha
  · rw [if_neg h2, if_neg (by omega)]
    have ht := active_eq_some.mp ha
    have hsl : slots (self._tasks.take self._size) = some ps := ha
    rw [hsl]
    have hql : (List.map some (qsort (_compareTask mem) ps)).length = self._size := by
      rw [List.length_map, (qsort_perm mem ps).length_eq, hlen]
    have htake : ((qsort (_compareTask mem) ps).map some ++
        self._tasks.drop self._size).take self._size =
        (qsort (_compareTask mem) ps).map some := by
      rw [List.take_append_of_le_length (by omega), List.take_of_length_le (by omega)]
    refine ⟨_, rfl, rfl, rfl, ?_, ?_, ?_, ?_, ?_⟩
    · exact active_eq_some.mpr htake
    · simp only [List.length_append, hql, List.length_drop]; omega
    · exact hs
    · exact hm
    · show (active _).isSome = true
      rw [active_eq_some.mpr htake]; rfl

/-! ## Registration -/

theorem take_set_succ {α : Type} : ∀ (l : List α) (n : Nat) (x : α), n < l.length →
    (l.set n x).take (n + 1) = l.take n ++ [x] := by
  intro l
  induction l with
  | nil => intro n x h; simp at h
  | cons a l ih =>
    intro n x h
    cases n with
    | zero => simp
    | succ n =>
      simp only [List.length_cons, Nat.add_lt_add_iff_right] at h
      simp [ih n x h]

theorem WF_active {self : Polling} (hwf : WF self) : ∃ ps, active self = some ps :=
  Option.isSome_iff_exists.mp hwf.2.2.2

/-- An `add` on a full object changes nothing. -/
theorem add_full (fuel now : Nat) {self : Polling} (mem : Mem) (p : _task_ptr)
    (h : ¬ self._size < self._max) : add fuel now self mem p = .ok (self, mem) := by
  unfold add
  rw [if_neg h]

/-- An `add` on an object that is not full, when the fast-forward ends with the task
value `t`: the reference is appended and the count grows by one. -/
theorem add_accept {fuel now : Nat} {self : Polling} {mem : Mem} {p : _task_ptr}
    {ps : List _task_ptr} {t : task} (hwf : WF self) (ha : active self = some ps)
    (h : self._size < self._max) (hadj : _adjustTime now fuel (mem p) = some t) :
    ∃ self', add fuel now self mem p = .ok (self', write mem p t) ∧
      self'._size = self._size + 1 ∧ self'._max = self._max ∧
      self'._minGap = self._minGap ∧ active self' = some (ps ++ [p]) ∧ WF self' := by
  obtain ⟨hl, hs, hm, _⟩ := hwf
  have hlt : self._size < self._tasks.length := by omega
  have hmod : (self._size + 1) % 256 = self._size + 1 := Nat.mod_eq_of_lt (by omega)
  have htake : (self._tasks.set self._size (some p)).take (self._size + 1) =
      (ps ++ [p]).map some := by
    rw [take_set_succ _ _ _ hlt, active_eq_some.mp ha]; simp
  have hact : active { self with _tasks := self._tasks.set self._size (some p)
                                 _size := self._size + 1 } = some (ps ++ [p]) :=
    active_eq_some.mpr htake
  unfold add adjustAt
  rw [if_pos h, if_pos hlt, hadj, hmod]
  refine ⟨_, rfl, rfl, rfl, rfl, hact, ?_, ?_, ?_, ?_⟩
  · simpa using hl
  · show self._size + 1 ≤ self._max
    omega
  · exact hm
  · rw [hact]; rfl

/-- Whatever the fuel, an `add` that returns leaves a well-formed object whose count is
the old one plus one, capped by the capacity, and touches no `period`. -/
theorem add_ok_inv {fuel now : Nat} {self self' : Polling} {mem mem' : Mem} {p : _task_ptr}
    (hwf : WF self) (h : add fuel now self mem p = .ok (self', mem')) :
    WF self' ∧ self'._max = self._max ∧ self'._size = min (self._size + 1) self._max ∧
      (∀ q, (mem' q).period = (mem q).period) := by
  by_cases hfull : self._size < self._max
  · obtain ⟨ps, ha⟩ := WF_active hwf
    cases hadj : _adjustTime now fuel (mem p) with
    | none =>
      unfold add adjustAt at h
      rw [if_pos hfull, hadj] at h
      split at h <;> cases h
    | some t =>
      obtain ⟨s1, h1, hsz, hmx, _, _, hwf1⟩ := add_accept hwf ha hfull hadj
      rw [h1] at h
      cases h
      refine ⟨hwf1, hmx, by rw [hsz]; omega, ?_⟩
      intro q
      unfold write
      split
      · next hq => rw [hq]; exact (adjustTime_fields now fuel _ _ hadj).1
      · rfl
  · rw [add_full fuel now mem p hfull] at h
    cases h
    exact ⟨hwf, rfl, by have := hwf.2.1; omega, fun _ => rfl⟩

theorem addAll_inv (fuel : Nat) : ∀ (regs : List (_task_ptr × Nat)) (self self' : Polling)
    (mem mem' : Mem), WF self → addAll fuel regs self mem = .ok (self', mem') →
    WF self' ∧ self'._max = self._max ∧
      self'._size = min (self._size + regs.length) self._max := by
  intro regs
  induction regs with
  | nil =>
    intro self self' mem mem' hwf h
    simp only [addAll, Except.ok.injEq, Prod.mk.injEq] at h
    obtain ⟨rfl, rfl⟩ := h
    exact ⟨hwf, rfl, by have := hwf.2.1; simp; omega⟩
  | cons r rest ih =>
    intro self self' mem mem' hwf h
    unfold addAll at h
    cases h1 : add fuel r.2 self mem r.1 with
    | error e => rw [h1] at h; cases h
    | ok sm =>
      rw [h1] at h
      obtain ⟨hwf1, hmx1, hsz1, _⟩ := add_ok_inv hwf (show add fuel r.2 self mem r.1 = .ok (sm.1, sm.2) from h1)
      obtain ⟨hwf2, hmx2, hsz2⟩ := ih sm.1 self' sm.2 mem' hwf1 h
      refine ⟨hwf2, by rw [hmx2, hmx1], ?_⟩
      rw [hsz2, hmx1, hsz1, List.length_cons]
      omega

theorem addAll_returns (fuel : Nat) : ∀ (regs : List (_task_ptr × Nat)) (self : Polling)
    (mem : Mem), WF self →
    (∀ r ∈ regs, 0 < (mem r.1).period ∧ r.2 + (mem r.1).period < ULONG ∧ r.2 + 2 ≤ fuel) →
    ∃ self' mem', addAll fuel regs self mem = .ok (self', mem') := by
  intro regs
  induction regs with
  | nil => intro self mem _ _; exact ⟨self, mem, rfl⟩
  | cons r rest ih =>
    intro self mem hwf hr
    obtain ⟨hp, hov, hf⟩ := hr r (List.mem_cons_self _ _)
    have hadd : ∃ s1 m1, add fuel r.2 self mem r.1 = .ok (s1, m1) := by
      by_cases hfull : self._size < self._max
      · obtain ⟨ps, ha⟩ := WF_active hwf
        obtain ⟨s1, h1, _⟩ := add_accept hwf ha hfull
          (adjustTime_eq r.2 fuel (mem r.1) hp (no_wrap_of_le hp hov) (by omega) (by omega))
        exact ⟨s1, _, h1⟩
      · exact ⟨self, mem, add_full fuel r.2 mem r.1 hfull⟩
    obtain ⟨s1, m1, h1⟩ := hadd
    obtain ⟨hwf1, _, _, hper⟩ := add_ok_inv hwf h1
    obtain ⟨s2, m2, h2⟩ := ih s1 m1 hwf1 (fun x hx => by
      rw [hper x.1]; exact hr x (List.mem_cons_of_mem _ hx))
    refine ⟨s2, m2, ?_⟩
    unfold addAll
    rw [h1]; exact h2

/-! ## One poll -/

theorem head_of_active {self : Polling} {q : _task_ptr} {qs : List _task_ptr}
    (h : active self = some (q :: qs)) : head self = .ok q := by
  have ht := active_eq_some.mp h
  unfold head
  cases hl : self._tasks with
  | nil => rw [hl] at ht; simp at ht
  | cons x l =>
    rw [hl] at ht
    cases hn : self._size with
    | zero => rw [hn] at ht; simp at ht
    | succ n =>
      rw [hn] at ht
      simp only [List.take_succ_cons, List.map_cons, List.cons.injEq] at ht
      rw [ht.1]

theorem pollReturn_ok {now : Nat} {self : Polling} {mem : Mem} {h : _task_ptr}
    (hh : head self = .ok h) :
    pollReturn now self mem = .ok ⟨self, mem, tnextOf (mem h).startTime now⟩ := by
  unfold pollReturn
  rw [hh]

theorem pollReturn_inv {now : Nat} {self : Polling} {mem : Mem} {r : PollOut}
    (h : pollReturn now self mem = .ok r) :
    r.self = self ∧ r.mem = mem ∧ ∃ p, head self = .ok p ∧ r.tnext = tnextOf (mem p).startTime now := by
  unfold pollReturn at h
  cases hh : head self with
  | error e => rw [hh] at h; cases h
  | ok p => rw [hh] at h; cases h; exact ⟨rfl, rfl, p, rfl, rfl⟩

theorem pollSort_inv {now : Nat} {self : Polling} {mem : Mem} {r : PollOut}
    (h : pollSort now self mem = .ok r) :
    r.mem = mem ∧ ∃ self1 p, sortTasks self mem = .ok self1 ∧ head self1 = .ok p ∧
      r.self._tasks = self1._tasks ∧ r.self._size = self1._size ∧ r.self._max = self1._max ∧
      r.tnext = tnextOf (mem p).startTime now := by
  unfold pollSort at h
  cases hs : sortTasks self mem with
  | error e => simp only [hs] at h; cases h
  | ok self1 =>
    simp only [hs] at h
    cases hh : head self1 with
    | error e => simp only [hh] at h; cases h
    | ok p =>
      simp only [hh] at h
      obtain ⟨h1, h2, q, hq, h3⟩ := pollReturn_inv h
      have hq' : head self1 = .ok q := hq
      rw [hh] at hq'
      cases hq'
      exact ⟨h2, self1, p, rfl, hh, by rw [h1], by rw [h1], by rw [h1], h3⟩


theorem sortTasks_small {self : Polling} (mem : Mem) (h : self._size < 2) :
    sortTasks self mem = .ok self := by
  unfold sortTasks
  rw [if_pos h]

theorem pollSort_ok (now : Nat) {self : Polling} (mem : Mem) {ps : List _task_ptr}
    {h0 : _task_ptr} (hwf : WF self) (ha : active self = some ps) (hh : head self = .ok h0) :
    ∃ r p, pollSort now self mem = .ok r ∧ r.mem = mem ∧ r.self._size = self._size ∧
      r.self._max = self._max ∧ active r.self = some (qsort (_compareTask mem) ps) ∧
      WF r.self ∧ head r.self = .ok p ∧ r.tnext = tnextOf (mem p).startTime now := by
  obtain ⟨self1, hs, hsz, hmx, hact, hwf1⟩ := sortTasks_ok mem hwf ha
  have hlen := active_length hwf ha
  have hh1 : ∃ p, head self1 = .ok p := by
    cases hq : qsort (_compareTask mem) ps with
    | nil =>
      have hz : ps.length = 0 := by
        rw [← (qsort_perm mem ps).length_eq, hq]; rfl
      have hs' := sortTasks_small mem (show self._size < 2 by omega)
      rw [hs] at hs'
      cases hs'
      exact ⟨h0, hh⟩
    | cons q qs =>
      rw [hq] at hact
      exact ⟨q, head_of_active hact⟩
  obtain ⟨p, hp⟩ := hh1
  unfold pollSort
  simp only [hs, hp]
  refine ⟨_, p, pollReturn_ok hp, rfl, hsz, hmx, hact, hwf1, hp, rfl⟩

theorem pollAdjust_inv {fuel now : Nat} {self : Polling} {mem : Mem} {r : PollOut}
    (h : pollAdjust fuel now self mem = .ok r) :
    ∃ p t, head self = .ok p ∧ _adjustTime now fuel (mem p) = some t ∧
      pollSort now self (write mem p t) = .ok r := by
  unfold pollAdjust adjustAt at h
  cases hh : head self with
  | error e => simp only [hh] at h; cases h
  | ok p =>
    simp only [hh] at h
    cases ha : _adjustTime now fuel (mem p) with
    | none => simp only [ha] at h; cases h
    | some t =>
      simp only [ha] at h
      exact ⟨p, t, rfl, ha, h⟩

theorem pollAdjust_eq {fuel now : Nat} {self : Polling} (mem : Mem) {p : _task_ptr}
    {t : task} (hh : head self = .ok p) (ha : _adjustTime now fuel (mem p) = some t) :
    pollAdjust fuel now self mem = pollSort now self (write mem p t) := by
  unfold pollAdjust adjustAt
  simp only [hh, ha]

theorem swap_remove (l0 : List (Option _task_ptr)) (x : Option _task_ptr)
    (rest : List _task_ptr) (ht : l0.take rest.length = rest.map some)
    (slot : Option _task_ptr) (hs : (x :: l0)[rest.length]? = some slot) :
    (∃ ps' : List _task_ptr, (slot :: l0).take rest.length = ps'.map some ∧ ps'.Perm rest) ∧
      (rest = [] → slot = x) ∧ (rest ≠ [] → ∃ q, slot = some q) := by
  rcases List.eq_nil_or_concat rest with hnil | ⟨L, b, hL⟩
  · subst hnil
    simp only [List.length_nil, List.getElem?_cons_zero, Option.some.injEq] at hs
    exact ⟨⟨[], by simp, List.Perm.refl _⟩, fun _ => hs.symm, fun h => absurd rfl h⟩
  · subst hL
    simp only [List.concat_eq_append, List.length_append, List.length_singleton,
      List.map_append, List.map_cons, List.map_nil] at ht hs ⊢
    have h1 : l0[L.length]? = some (some b) := by
      rw [← List.getElem?_take_of_succ, ht]
      simp
    have h2 : l0.take L.length = L.map some := by
      have := congrArg (List.take L.length) ht
      rw [List.take_take] at this
      simpa using this
    simp only [List.getElem?_cons_succ, h1, Option.some.injEq] at hs
    subst hs
    refine ⟨⟨b :: L, ?_, (List.perm_append_singleton b L).symm⟩, ?_, fun _ => ⟨b, rfl⟩⟩
    · simp [h2]
    · intro h; simp at h


/-- The case `DELETED` on a well-formed table whose head is `h`: the count drops by one,
the other references stay tracked, each once, re-sorted. -/
theorem pollDelete_ok (now : Nat) {self : Polling} (mem : Mem) {h : _task_ptr}
    {rest : List _task_ptr} (hwf : WF self) (ha : active self = some (h :: rest)) :
    ∃ r p ps', pollDelete now self mem = .ok r ∧ r.mem = mem ∧
      r.self._size + 1 = self._size ∧ r.self._max = self._max ∧
      active r.self = some ps' ∧ ps'.Perm rest ∧ ascending mem ps' ∧ WF r.self ∧
      head r.self = .ok p ∧ r.tnext = tnextOf (mem p).startTime now := by
  have hlen := active_length hwf ha
  have ht := active_eq_some.mp ha
  obtain ⟨tasks, size, max, gap⟩ := self
  obtain ⟨hl, hs, hm, _⟩ := hwf
  simp only [List.length_cons] at hlen hl hs hm ht
  subst hlen
  cases tasks with
  | nil => simp at ht
  | cons x l0 =>
    simp only [List.take_succ_cons, List.map_cons, List.cons.injEq] at ht
    obtain ⟨hx, ht⟩ := ht
    subst hx
    have hsz : (rest.length + 1 + 255) % 256 = rest.length := by omega
    have hlt : rest.length < (some h :: l0).length := by
      simp only [List.length_cons] at hl ⊢; omega
    obtain ⟨slot, hslot⟩ : ∃ slot, (some h :: l0)[rest.length]? = some slot :=
      ⟨_, List.getElem?_eq_getElem hlt⟩
    obtain ⟨⟨ps', hps, hperm⟩, hnil, hcons⟩ := swap_remove l0 (some h) rest ht slot hslot
    have hact : active ⟨slot :: l0, rest.length, max, gap⟩ = some ps' :=
      active_eq_some.mpr hps
    have hwf' : WF ⟨slot :: l0, rest.length, max, gap⟩ := by
      refine ⟨?_, ?_, hm, ?_⟩
      · simpa using hl
      · show rest.length ≤ max
        omega
      · rw [hact]; rfl
    have hhead : ∃ q, head ⟨slot :: l0, rest.length, max, gap⟩ = .ok q := by
      by_cases hr : rest = []
      · rw [hnil hr]; exact ⟨h, rfl⟩
      · obtain ⟨q, hq⟩ := hcons hr
        rw [hq]; exact ⟨q, rfl⟩
    obtain ⟨q, hq⟩ := hhead
    obtain ⟨r, p, hr, hmem, hsize, hmax, hact', hwf'', hp, htn⟩ :=
      pollSort_ok now mem hwf' hact hq
    refine ⟨r, p, _, ?_, hmem, by rw [hsize], hmax, hact', ?_, qsort_ascending mem ps',
      hwf'', hp, htn⟩
    · unfold pollDelete
      simp only [hsz, hslot, List.set_cons_zero]
      exact hr
    · exact (qsort_perm mem ps').trans hperm

theorem loopPolling_not_due_eq {code : Code} {fuel now : Nat} {self : Polling} {mem : Mem}
    {h : _task_ptr} (hh : head self = .ok h) (hnd : now < (mem h).startTime) :
    loopPolling code fuel now self mem =
      ([], .ok ⟨self, mem, tnextOf (mem h).startTime now⟩) := by
  unfold loopPolling
  simp only [hh, if_neg (Nat.not_le.mpr hnd), pollReturn_ok hh]

theorem loopPolling_deleted_eq {code : Code} {fuel now : Nat} {self : Polling} {mem : Mem}
    {h : _task_ptr} (hh : head self = .ok h) (hd : (mem h).startTime ≤ now)
    (hs : (mem h).status = .DELETED) :
    loopPolling code fuel now self mem = ([], pollDelete now self mem) := by
  unfold loopPolling
  simp only [hh, if_pos hd, hs]

theorem loopPolling_waiting_eq {code : Code} {fuel now : Nat} {self : Polling} {mem : Mem}
    {h : _task_ptr} (hh : head self = .ok h) (hd : (mem h).startTime ≤ now)
    (hs : (mem h).status = .WAITING) :
    loopPolling code fuel now self mem = ([], pollAdjust fuel now self mem) := by
  unfold loopPolling
  simp only [hh, if_pos hd, hs]

theorem loopPolling_fire_eq {code : Code} {fuel now : Nat} {self : Polling} {mem : Mem}
    {h : _task_ptr} (hh : head self = .ok h) (hd : (mem h).startTime ≤ now)
    (hs : (mem h).status = .RUNNING ∨ (mem h).status = .ONTIME ∨ (mem h).status = .ONESHOOT) :
    loopPolling code fuel now self mem =
      ([(h, (mem h).fLoop)], pollAdjust fuel now self (called code mem h)) := by
  unfold loopPolling called
  rcases hs with hs | hs | hs <;> simp only [hh, if_pos hd, hs, write, if_true]

/-- After a due head that is not `DELETED`, a poll that returns leaves the table a sorted
rearrangement of itself and the task variables those the callback left, with the head
fast-forwarded. -/
theorem loopPolling_adjust_inv {code : Code} {fuel now : Nat} {self : Polling} {mem : Mem}
    {h : _task_ptr} {r : PollOut} (hh : head self = .ok h) (hd : (mem h).startTime ≤ now)
    (hs : (mem h).status ≠ .DELETED) (hr : (loopPolling code fuel now self mem).2 = .ok r) :
    ∃ t, _adjustTime now fuel (called code mem h h) = some t ∧
      r.mem = write (called code mem h) h t ∧
      pollSort now self (write (called code mem h) h t) = .ok r := by
  have key : (loopPolling code fuel now self mem).2 =
      pollAdjust fuel now self (called code mem h) := by
    cases hst : (mem h).status with
    | DELETED => exact absurd hst hs
    | WAITING =>
      rw [loopPolling_waiting_eq hh hd hst]
      simp only [called, hst]
    | RUNNING => rw [loopPolling_fire_eq hh hd (Or.inl hst)]
    | ONTIME => rw [loopPolling_fire_eq hh hd (Or.inr (Or.inl hst))]
    | ONESHOOT => rw [loopPolling_fire_eq hh hd (Or.inr (Or.inr hst))]
  rw [key] at hr
  obtain ⟨p, t, hp, ht, hsort⟩ := pollAdjust_inv hr
  rw [hh] at hp
  cases hp
  exact ⟨t, ht, (pollSort_inv hsort).1, hsort⟩

/-- C1: for every capacity `c` (a byte) and every sequence of `add` calls on a fresh
`Polling(c)`, followed by `begin()`, `getSize()` equals `min n c`, where `n` is the number
of calls: this holds whenever the calls return, `begin()` then returns and leaves the count
as it is, and the calls do return when every registered task has a positive period and its
fast-forward does not wrap. -/
theorem getSize_after_adds (c : Nat) (hc : c < 256) (fuel : Nat)
    (regs : List (_task_ptr × Nat)) (mem : Mem) :
    (∀ self' mem', addAll fuel regs (Polling.new c) mem = .ok (self', mem') →
      getSize self' = (min regs.length c : Nat) ∧
      ∃ self'', begin self' mem' = .ok self'' ∧
        getSize self'' = (min regs.length c : Nat)) ∧
    ((∀ r ∈ regs, 0 < (mem r.1).period ∧ r.2 + (mem r.1).period < ULONG ∧ r.2 + 2 ≤ fuel) →
      ∃ self' mem', addAll fuel regs (Polling.new c) mem = .ok (self', mem')) := by
  have hnew : (Polling.new c)._max = c := Nat.mod_eq_of_lt hc
  refine ⟨?_, addAll_returns fuel regs _ mem (WF_new c)⟩
  intro self' mem' h
  obtain ⟨hwf, hmx, hsz⟩ := addAll_inv fuel regs _ _ _ _ (WF_new c) h
  rw [hnew] at hsz
  have hsz' : self'._size = min regs.length c := by
    rw [hsz]; simp [Polling.new]
  obtain ⟨ps, ha⟩ := WF_active hwf
  obtain ⟨s2, hs2, hsize2, _⟩ := sortTasks_ok mem' hwf ha
  refine ⟨by unfold getSize; rw [hsz'], s2, hs2, ?_⟩
  unfold getSize
  rw [hsize2, hsz']

/-- Witness of C1: capacity 2 and three `add` calls, the last one on the full object. -/
theorem getSize_after_adds_witness :
    2 < 256 ∧
    ((∀ self' mem', addAll 5 [(0, 0), (1, 0), (0, 3)] (Polling.new 2) demoMem = .ok (self', mem') →
      getSize self' = (min [(0, 0), (1, 0), (0, 3)].length 2 : Nat) ∧
      ∃ self'', begin self' mem' = .ok self'' ∧
        getSize self'' = (min [(0, 0), (1, 0), (0, 3)].length 2 : Nat)) ∧
    ((∀ r ∈ [(0, 0), (1, 0), (0, 3)],
        0 < (demoMem r.1).period ∧ r.2 + (demoMem r.1).period < ULONG ∧ r.2 + 2 ≤ 5) →
      ∃ self' mem', addAll 5 [(0, 0), (1, 0), (0, 3)] (Polling.new 2) demoMem = .ok (self', mem'))) :=
  ⟨by decide, getSize_after_adds 2 (by decide) 5 [(0, 0), (1, 0), (0, 3)] demoMem⟩


/-- C2: for every accepted `add(t)` at clock value `now`, with `t.period > 0` and no 32-bit
overflow of the sums involved, the call returns and leaves
`t.startTime' = t.startTime + k * t.period` for the smallest `k >= 0` with
`t.startTime' > now`: it is unchanged when `t.startTime > now` already, and otherwise
`now < t.startTime' <= now + t.period`; period, callback and status of `t` are unchanged,
and so is every other task. -/
theorem add_fast_forward (fuel now : Nat) (self : Polling) (mem : Mem) (p : _task_ptr)
    (hwf : WF self) (hacc : self._size < self._max) (hp : 0 < (mem p).period)
    (hov : (mem p).startTime + skips now (mem p).startTime (mem p).period * (mem p).period
      < ULONG)
    (hf : now + 2 ≤ fuel) :
    ∃ self' mem' k, add fuel now self mem p = .ok (self', mem') ∧
      (mem' p).startTime = (mem p).startTime + k * (mem p).period ∧
      now < (mem p).startTime + k * (mem p).period ∧
      (∀ j, now < (mem p).startTime + j * (mem p).period → k ≤ j) ∧
      (now < (mem p).startTime → (mem' p).startTime = (mem p).startTime) ∧
      ((mem p).startTime ≤ now →
        now < (mem' p).startTime ∧ (mem' p).startTime ≤ now + (mem p).period) ∧
      (mem' p).period = (mem p).period ∧ (mem' p).fLoop = (mem p).fLoop ∧
      (mem' p).status = (mem p).status ∧ (∀ q, q ≠ p → mem' q = mem q) := by
  obtain ⟨ps, ha⟩ := WF_active hwf
  have hadj := adjustTime_eq now fuel (mem p) hp (fun _ => hov) (by omega) (by omega)
  obtain ⟨self', hadd, _⟩ := add_accept hwf ha hacc hadj
  refine ⟨self', _, skips now (mem p).startTime (mem p).period, hadd, ?_, skips_gt hp,
    fun j hj => skips_min hp j hj, ?_, ?_, ?_, ?_, ?_, ?_⟩
  · simp [write]
  · intro h
    simp [write, skips_of_gt hp h]
  · intro h
    simp only [write, if_true]
    exact ⟨skips_gt hp, skips_le hp h⟩
  · simp [write]
  · simp [write]
  · simp [write]
  · intro q hq
    simp [write, hq]

/-- Witness of C2: the task `{0, 1000, f0, RUNNING}` added at clock 2500. -/
theorem add_fast_forward_witness :
    ∃ self' mem' k, add 2502 2500 (Polling.new 2) demoMem 0 = .ok (self', mem') ∧
      (mem' 0).startTime = (demoMem 0).startTime + k * (demoMem 0).period ∧
      2500 < (demoMem 0).startTime + k * (demoMem 0).period ∧
      (∀ j, 2500 < (demoMem 0).startTime + j * (demoMem 0).period → k ≤ j) ∧
      (2500 < (demoMem 0).startTime → (mem' 0).startTime = (demoMem 0).startTime) ∧
      ((demoMem 0).startTime ≤ 2500 →
        2500 < (mem' 0).startTime ∧ (mem' 0).startTime ≤ 2500 + (demoMem 0).period) ∧
      (mem' 0).period = (demoMem 0).period ∧ (mem' 0).fLoop = (demoMem 0).fLoop ∧
      (mem' 0).status = (demoMem 0).status ∧ (∀ q, q ≠ 0 → mem' q = demoMem q) :=
  add_fast_forward 2502 2500 (Polling.new 2) demoMem 0 (WF_new 2) (by decide) (by decide)
    (by decide) (by decide)

/-- C3 (amended): for every poll at clock value `now` on a scheduler whose head is `h`,
the head's callback is invoked exactly once if the head is due and its status is RUNNING,
ONTIME or ONESHOOT, and no callback at all is invoked otherwise (head not due, or status
WAITING or DELETED); no callback of another task is invoked. After a firing poll whose
callback left the head's status as it found it (WAITING for a ONESHOOT head, which is
marked before the call), a ONESHOOT head has status WAITING and a RUNNING/ONTIME head
keeps its status; and the firing poll does return when the table is well formed and the
head's fast-forward, with the period the callback left, is positive and does not wrap. -/
theorem loopPolling_head_only (code : Code) (fuel now : Nat) (self : Polling) (mem : Mem)
    (h : _task_ptr) (hh : head self = .ok h) :
    ((mem h).startTime ≤ now →
      ((mem h).status = .RUNNING ∨ (mem h).status = .ONTIME ∨ (mem h).status = .ONESHOOT) →
      (loopPolling code fuel now self mem).1 = [(h, (mem h).fLoop)]) ∧
    ((now < (mem h).startTime ∨ (mem h).status = .WAITING ∨ (mem h).status = .DELETED) →
      (loopPolling code fuel now self mem).1 = []) ∧
    (∀ c ∈ (loopPolling code fuel now self mem).1, c.1 = h) ∧
    (∀ r, (loopPolling code fuel now self mem).2 = .ok r → (mem h).startTime ≤ now →
      ((mem h).status = .ONESHOOT →
        (code (mem h).fLoop (write mem h { mem h with status := .WAITING }) h).status
          = .WAITING →
        (r.mem h).status = .WAITING) ∧
      ((mem h).status = .RUNNING ∨ (mem h).status = .ONTIME →
        (code (mem h).fLoop mem h).status = (mem h).status →
        (r.mem h).status = (mem h).status)) ∧
    (WF self → 0 < self._size → now + 2 ≤ fuel → (mem h).startTime ≤ now →
      ((mem h).status = .RUNNING ∨ (mem h).status = .ONTIME ∨ (mem h).status = .ONESHOOT) →
      0 < (called code mem h h).period →
      (called code mem h h).startTime +
        skips now (called code mem h h).startTime (called code mem h h).period *
          (called code mem h h).period < ULONG →
      ∃ r, (loopPolling code fuel now self mem).2 = .ok r) := by
  refine ⟨?_, ?_, ?_, ?_, ?_⟩
  · intro hd hs
    rw [loopPolling_fire_eq hh hd hs]
  · intro hc
    by_cases hd : (mem h).startTime ≤ now
    · rcases hc with hc | hc | hc
      · omega
      · rw [loopPolling_waiting_eq hh hd hc]
      · rw [loopPolling_deleted_eq hh hd hc]
    · rw [loopPolling_not_due_eq hh (by omega)]
  · intro c hc
    by_cases hd : (mem h).startTime ≤ now
    · cases hst : (mem h).status with
      | WAITING => rw [loopPolling_waiting_eq hh hd hst] at hc; simp at hc
      | DELETED => rw [loopPolling_deleted_eq hh hd hst] at hc; simp at hc
      | RUNNING =>
        rw [loopPolling_fire_eq hh hd (Or.inl hst)] at hc
        simp only [List.mem_singleton] at hc; rw [hc]
      | ONTIME =>
        rw [loopPolling_fire_eq hh hd (Or.inr (Or.inl hst))] at hc
        simp only [List.mem_singleton] at hc; rw [hc]
      | ONESHOOT =>
        rw [loopPolling_fire_eq hh hd (Or.inr (Or.inr hst))] at hc
        simp only [List.mem_singleton] at hc; rw [hc]
    · rw [loopPolling_not_due_eq hh (by omega)] at hc; simp at hc
  · intro r hr hd
    refine ⟨fun hs hcb => ?_, fun hs hcb => ?_⟩
    · obtain ⟨t, ht, hmem, _⟩ := loopPolling_adjust_inv hh hd (by rw [hs]; decide) hr
      rw [hmem]
      simp only [write, if_true]
      rw [(adjustTime_fields now fuel _ _ ht).2.2.1]
      simp only [called, hs]
      exact hcb
    · obtain ⟨t, ht, hmem, _⟩ := loopPolling_adjust_inv hh hd
        (by rcases hs with hs | hs <;> rw [hs] <;> decide) hr
      rw [hmem]
      simp only [write, if_true]
      rw [(adjustTime_fields now fuel _ _ ht).2.2.1]
      rcases hs with hs | hs <;> simp only [called, hs] <;> rw [← hs] <;> exact hcb
  · intro hwf hsz hf hd hs hp hov
    obtain ⟨ps, ha⟩ := WF_active hwf
    rw [loopPolling_fire_eq hh hd hs]
    rw [pollAdjust_eq (called code mem h) hh
      (adjustTime_eq now fuel _ hp (fun _ => hov) (by omega) (by omega))]
    obtain ⟨r, _, hr, _⟩ := pollSort_ok now
      (write (called code mem h) h _) hwf ha hh
    exact ⟨r, hr⟩

/-- Witness of C3: one RUNNING task due at clock 1000 fires once. -/
theorem loopPolling_head_only_witness :
    head ⟨[some 0], 1, 1, -100000⟩ = .ok 0 ∧
    (loopPolling idle 1002 1000 ⟨[some 0], 1, 1, -100000⟩ soloMem).1 = [(0, 7)] :=
  ⟨rfl, (loopPolling_head_only idle 1002 1000 ⟨[some 0], 1, 1, -100000⟩ soloMem 0 rfl).1
    (by decide) (by decide)⟩

/-- C3 (counterexample): `Polling(1)`, `add` of the task `{1000, 1000, f7, RUNNING}` at
clock 0, `begin()`, then a poll at clock 1000 whose callback marks the task DELETED: the
RUNNING head is due and fires once, and after the poll its status is DELETED, not
RUNNING. -/
theorem running_head_status_rewritten :
    ∃ s1 m1 s2 r, add 5 0 (Polling.new 1) soloMem 0 = .ok (s1, m1) ∧
      begin s1 m1 = .ok s2 ∧ head s2 = .ok 0 ∧ (m1 0).startTime ≤ 1000 ∧
      (m1 0).status = .RUNNING ∧
      loopPolling deleter 5 1000 s2 m1 = ([(0, 7)], .ok r) ∧
      (r.mem 0).status = .DELETED :=
  ⟨_, _, _, _, rfl, rfl, rfl, by decide, rfl, rfl, rfl⟩

/-! ## The returned value -/

theorem tnextOf_pos {s now : Nat} (h : now < s) (hr : s - now < 2 ^ 31) :
    tnextOf s now = ((s - now : Nat) : Int) := by
  unfold tnextOf toLong ULONG
  rw [if_pos h]
  have h1 : (s - now) % 2 ^ 32 = s - now := Nat.mod_eq_of_lt (by omega)
  rw [h1, if_pos hr]

theorem tnextOf_self (now : Nat) : tnextOf now now = 0 := by
  unfold tnextOf toLong toULong ULONG
  simp

theorem tnextOf_neg {s now : Nat} (h : s < now) (hr : now - s ≤ 2 ^ 31) :
    tnextOf s now = -((now - s : Nat) : Int) := by
  unfold tnextOf toLong toULong ULONG
  rw [if_neg (by omega)]
  have h1 : (now - s) % 2 ^ 32 = now - s := Nat.mod_eq_of_lt (by omega)
  rw [h1]
  split <;> split <;> omega


theorem head_congr {a b : Polling} (h : a._tasks = b._tasks) : head a = head b := by
  unfold head
  rw [h]

theorem pollDelete_inv {now : Nat} {self : Polling} {mem : Mem} {r : PollOut}
    (h : pollDelete now self mem = .ok r) :
    ∃ self', pollSort now self' mem = .ok r := by
  unfold pollDelete at h
  cases hs : self._tasks[(self._size + 255) % 256]? with
  | none => simp only [hs] at h; cases h
  | some slot => simp only [hs] at h; exact ⟨_, h⟩

/-- The value a poll returns is computed from the head it leaves. -/
theorem loopPolling_tnext {code : Code} {fuel now : Nat} {self : Polling} {mem : Mem}
    {r : PollOut} (hr : (loopPolling code fuel now self mem).2 = .ok r) :
    ∃ p, head r.self = .ok p ∧ r.tnext = tnextOf (r.mem p).startTime now := by
  have fromSort : ∀ s' m', pollSort now s' m' = .ok r →
      ∃ p, head r.self = .ok p ∧ r.tnext = tnextOf (r.mem p).startTime now := by
    intro s' m' hs
    obtain ⟨hm, self1, p, _, hp, ht, _, _, htn⟩ := pollSort_inv hs
    exact ⟨p, by rw [head_congr ht]; exact hp, by rw [hm]; exact htn⟩
  cases hh : head self with
  | error e =>
    unfold loopPolling at hr
    simp only [hh] at hr
    cases hr
  | ok h =>
    by_cases hd : (mem h).startTime ≤ now
    · by_cases hs : (mem h).status = .DELETED
      · rw [loopPolling_deleted_eq hh hd hs] at hr
        obtain ⟨s', hs'⟩ := pollDelete_inv hr
        exact fromSort _ _ hs'
      · obtain ⟨t, _, _, hsort⟩ := loopPolling_adjust_inv hh hd hs hr
        exact fromSort _ _ hsort
    · rw [loopPolling_not_due_eq hh (by omega)] at hr
      cases hr
      exact ⟨h, hh, rfl⟩

/-- C4 (amended): if the head task's `startTime` is greater than the current clock value,
`loopPolling()` is a pure query: no callback is invoked, the object (count, table, order)
and every field of every task are unchanged; the returned value is
`head.startTime - now`, positive, when this difference is below `2 ^ 31`. -/
theorem loopPolling_not_due (code : Code) (fuel now : Nat) (self : Polling) (mem : Mem)
    (h : _task_ptr) (hh : head self = .ok h) (hnd : now < (mem h).startTime) :
    ∃ v, loopPolling code fuel now self mem = ([], .ok ⟨self, mem, v⟩) ∧
      ((mem h).startTime - now < 2 ^ 31 →
        v = (((mem h).startTime - now : Nat) : Int) ∧ 0 < v) := by
  refine ⟨_, loopPolling_not_due_eq hh hnd, fun hr => ?_⟩
  rw [tnextOf_pos hnd hr]
  exact ⟨rfl, by omega⟩

/-- Witness of C4: one task due at 1000, polled at clock 999. -/
theorem loopPolling_not_due_witness :
    ∃ v, loopPolling idle 0 999 ⟨[some 0], 1, 1, -100000⟩ soloMem =
        ([], .ok ⟨⟨[some 0], 1, 1, -100000⟩, soloMem, v⟩) ∧
      ((soloMem 0).startTime - 999 < 2 ^ 31 →
        v = (((soloMem 0).startTime - 999 : Nat) : Int) ∧ 0 < v) :=
  loopPolling_not_due idle 0 999 ⟨[some 0], 1, 1, -100000⟩ soloMem 0 rfl (by decide)

/-- C4 (counterexample): `Polling(1)`, `add` of the task `{2147483648, 1000, f7, RUNNING}`
at clock 0, `begin()`, then a poll at clock 0: the head is not due, and the returned value
is `-2147483648`, not the positive `head.startTime - now`. -/
theorem far_head_returns_negative :
    ∃ s1 m1 s2 r, add 5 0 (Polling.new 1) farMem 0 = .ok (s1, m1) ∧
      begin s1 m1 = .ok s2 ∧ head s2 = .ok 0 ∧ 0 < (m1 0).startTime ∧
      loopPolling idle 5 0 s2 m1 = ([], .ok r) ∧ r.tnext = -2147483648 :=
  ⟨_, _, _, _, rfl, rfl, rfl, by decide, rfl, by decide⟩

/-- C6 (amended): for every poll that returns (clock constant during the poll), with `p`
the head after the cycle: if its `startTime` is below `now`, by at most `2 ^ 31`, the
returned value is negative; if its `startTime` equals `now` the returned value is `0`; if
its `startTime` is above `now`, by less than `2 ^ 31`, the returned value is positive. -/
theorem loopPolling_sign (code : Code) (fuel now : Nat) (self : Polling) (mem : Mem)
    (r : PollOut) (hr : (loopPolling code fuel now self mem).2 = .ok r) :
    ∃ p, head r.self = .ok p ∧
      ((r.mem p).startTime < now → now - (r.mem p).startTime ≤ 2 ^ 31 → r.tnext < 0) ∧
      ((r.mem p).startTime = now → r.tnext = 0) ∧
      (now < (r.mem p).startTime → (r.mem p).startTime - now < 2 ^ 31 → 0 < r.tnext) := by
  obtain ⟨p, hp, ht⟩ := loopPolling_tnext hr
  refine ⟨p, hp, fun h1 h2 => ?_, fun h1 => ?_, fun h1 h2 => ?_⟩
  · rw [ht, tnextOf_neg h1 h2]; omega
  · rw [ht, h1, tnextOf_self]
  · rw [ht, tnextOf_pos h1 h2]; omega

/-- Witness of C6: one task due at 1000, polled at clock 999. -/
theorem loopPolling_sign_witness :
    ∃ p, head (⟨[some 0], 1, 1, -100000⟩ : Polling) = .ok p ∧
      ((soloMem p).startTime < 999 → 999 - (soloMem p).startTime ≤ 2 ^ 31 →
        tnextOf (soloMem 0).startTime 999 < 0) ∧
      ((soloMem p).startTime = 999 → tnextOf (soloMem 0).startTime 999 = 0) ∧
      (999 < (soloMem p).startTime → (soloMem p).startTime - 999 < 2 ^ 31 →
        0 < tnextOf (soloMem 0).startTime 999) :=
  loopPolling_sign idle 0 999 ⟨[some 0], 1, 1, -100000⟩ soloMem
    ⟨⟨[some 0], 1, 1, -100000⟩, soloMem, tnextOf (soloMem 0).startTime 999⟩ rfl

/-- C6 (counterexample): `Polling(2)`, two tasks `{1000, 1000, f7, RUNNING}` added at
clock 0, `begin()`, then a poll at clock 1000: one task fires and is moved to 2000, the
head after the cycle is the other one, still due (`startTime = 1000 <= now`), and the
returned value is `0`, which is not negative. -/
theorem due_head_returns_zero :
    ∃ s1 m1 s2 m2 s3 r p, add 5 0 (Polling.new 2) soloMem 0 = .ok (s1, m1) ∧
      add 5 0 s1 m1 1 = .ok (s2, m2) ∧ begin s2 m2 = .ok s3 ∧
      (loopPolling idle 5 1000 s3 m2).2 = .ok r ∧ head r.self = .ok p ∧
      1 ≤ r.self._size ∧ (r.mem p).startTime ≤ 1000 ∧ ¬ r.tnext < 0 :=
  ⟨_, _, _, _, _, _, _, rfl, rfl, rfl, rfl, rfl, by decide, by decide, by decide⟩

/-- C7: for every well-formed scheduler whose tracked references are `h :: rest` (count
`n >= 1`, head `h`): if the head is due and DELETED, one `loopPolling()` returns, invokes
no callback, leaves `getSize()` equal to `n - 1` and leaves tracked exactly the references
of `rest` (each once), ascending by `startTime`, with no task field changed; if the head is
not yet due the poll changes nothing, whatever its status; and if the head is due and not
DELETED, a poll that returns keeps the count and keeps every reference tracked, so a
DELETED task that is not the head is not removed. -/
theorem loopPolling_deleted_head (code : Code) (fuel now : Nat) (self : Polling) (mem : Mem)
    (h : _task_ptr) (rest : List _task_ptr) (hwf : WF self)
    (ha : active self = some (h :: rest)) :
    ((mem h).startTime ≤ now → (mem h).status = .DELETED →
      ∃ r ps', loopPolling code fuel now self mem = ([], .ok r) ∧
        getSize r.self = getSize self - 1 ∧ active r.self = some ps' ∧ ps'.Perm rest ∧
        ascending r.mem ps' ∧ r.mem = mem) ∧
    (now < (mem h).startTime →
      ∃ v, loopPolling code fuel now self mem = ([], .ok ⟨self, mem, v⟩)) ∧
    ((mem h).startTime ≤ now → (mem h).status ≠ .DELETED →
      ∀ r, (loopPolling code fuel now self mem).2 = .ok r →
        getSize r.self = getSize self ∧
        ∃ ps', active r.self = some ps' ∧ ps'.Perm (h :: rest)) := by
  have hh := head_of_active ha
  refine ⟨fun hd hs => ?_, fun hnd => ⟨_, loopPolling_not_due_eq hh hnd⟩, fun hd hs r hr => ?_⟩
  · obtain ⟨r, p, ps', hr, hmem, hsz, _, hact, hperm, hasc, _⟩ :=
      pollDelete_ok now mem hwf ha
    refine ⟨r, ps', ?_, ?_, hact, hperm, by rw [hmem]; exact hasc, hmem⟩
    · rw [loopPolling_deleted_eq hh hd hs, hr]
    · unfold getSize
      omega
  · obtain ⟨t, _, _, hsort⟩ := loopPolling_adjust_inv hh hd hs hr
    obtain ⟨r', _, hr', _, hsz, _, hact, _⟩ := pollSort_ok now
      (write (called code mem h) h t) hwf ha hh
    rw [hsort] at hr'
    cases hr'
    exact ⟨by unfold getSize; rw [hsz], _, hact, qsort_perm _ _⟩

/-- Witness of C7: three tracked tasks, the head DELETED and due at clock 150. -/
theorem loopPolling_deleted_head_witness :
    ∃ r ps', loopPolling idle 0 150 ⟨[some 0, some 1, some 2], 3, 3, -100000⟩ wasteMem
        = ([], .ok r) ∧
      getSize r.self = getSize ⟨[some 0, some 1, some 2], 3, 3, -100000⟩ - 1 ∧
      active r.self = some ps' ∧ ps'.Perm [1, 2] ∧ ascending r.mem ps' ∧ r.mem = wasteMem :=
  (loopPolling_deleted_head idle 0 150 ⟨[some 0, some 1, some 2], 3, 3, -100000⟩ wasteMem
    0 [1, 2] (by decide) rfl).1 (by decide) rfl

/-! ## Sequences of polls -/

theorem called_idle {code : Code} (hcode : ∀ f m, code f m = m) (mem : Mem) (h q : _task_ptr) :
    (called code mem h q).status = (mem q).status ∨
      ((mem q).status = .ONESHOOT ∧ (called code mem h q).status = .WAITING ∧ q = h) := by
  cases hs : (mem h).status with
  | WAITING => left; simp only [called, hs]
  | RUNNING => left; simp only [called, hs, hcode]
  | ONTIME => left; simp only [called, hs, hcode]
  | DELETED => left; simp only [called, hs]
  | ONESHOOT =>
    by_cases hq : q = h
    · subst hq
      right
      simp only [called, hs, hcode, write, if_true, and_self]
    · left
      simp only [called, hs, hcode, write, if_neg hq]

/-- With callbacks that leave the task variables alone, a poll changes no status, except
that of a one-shot head it fires, which becomes WAITING. -/
theorem poll_status {code : Code} (hcode : ∀ f m, code f m = m) {fuel now : Nat}
    {self : Polling} {mem : Mem} {r : PollOut}
    (hr : (loopPolling code fuel now self mem).2 = .ok r) (q : _task_ptr) :
    (r.mem q).status = (mem q).status ∨
      ((mem q).status = .ONESHOOT ∧ (r.mem q).status = .WAITING) := by
  cases hh : head self with
  | error e =>
    unfold loopPolling at hr
    simp only [hh] at hr
    cases hr
  | ok h =>
    by_cases hd : (mem h).startTime ≤ now
    · by_cases hs : (mem h).status = .DELETED
      · rw [loopPolling_deleted_eq hh hd hs] at hr
        obtain ⟨s', hs'⟩ := pollDelete_inv hr
        rw [(pollSort_inv hs').1]
        exact Or.inl rfl
      · obtain ⟨t, ht, hmem, _⟩ := loopPolling_adjust_inv hh hd hs hr
        have hst : (r.mem q).status = (called code mem h q).status := by
          rw [hmem]
          unfold write
          by_cases hq : q = h
          · subst hq
            simp only [if_true]
            exact (adjustTime_fields now fuel _ _ ht).2.2.1
          · simp only [if_neg hq]
        rw [hst]
        rcases called_idle hcode mem h q with h1 | ⟨h1, h2, _⟩
        · exact Or.inl h1
        · exact Or.inr ⟨h1, h2⟩
    · rw [loopPolling_not_due_eq hh (by omega)] at hr
      cases hr
      exact Or.inl rfl

/-- What a poll invokes: nothing, or the callback of its due head, whose status is then
RUNNING, ONTIME or ONESHOOT. -/
theorem poll_calls (code : Code) (fuel now : Nat) (self : Polling) (mem : Mem) :
    (loopPolling code fuel now self mem).1 = [] ∨
      ∃ h, head self = .ok h ∧ (mem h).startTime ≤ now ∧
        ((mem h).status = .RUNNING ∨ (mem h).status = .ONTIME ∨ (mem h).status = .ONESHOOT) ∧
        (loopPolling code fuel now self mem).1 = [(h, (mem h).fLoop)] := by
  cases hh : head self with
  | error e =>
    left
    unfold loopPolling
    simp only [hh]
  | ok h =>
    by_cases hd : (mem h).startTime ≤ now
    · cases hst : (mem h).status with
      | WAITING => left; rw [loopPolling_waiting_eq hh hd hst]
      | DELETED => left; rw [loopPolling_deleted_eq hh hd hst]
      | RUNNING =>
        exact Or.inr ⟨h, rfl, hd, Or.inl hst, by rw [loopPolling_fire_eq hh hd (Or.inl hst)]⟩
      | ONTIME =>
        exact Or.inr ⟨h, rfl, hd, Or.inr (Or.inl hst),
          by rw [loopPolling_fire_eq hh hd (Or.inr (Or.inl hst))]⟩
      | ONESHOOT =>
        exact Or.inr ⟨h, rfl, hd, Or.inr (Or.inr hst),
          by rw [loopPolling_fire_eq hh hd (Or.inr (Or.inr hst))]⟩
    · left; rw [loopPolling_not_due_eq hh (by omega)]

theorem pollLog_cons (code : Code) (fuel now : Nat) (rest : List Nat) (self : Polling)
    (mem : Mem) :
    pollLog code fuel (now :: rest) self mem =
      match (loopPolling code fuel now self mem).2 with
      | .error _ => [((loopPolling code fuel now self mem).1, none)]
      | .ok r => ((loopPolling code fuel now self mem).1, some r.tnext) ::
          pollLog code fuel rest r.self r.mem := by
  rw [pollLog]
  rcases hlp : loopPolling code fuel now self mem with ⟨cs, out⟩
  cases out <;> rfl

theorem invocations_cons (p : _task_ptr) (e : List Call × Option Int)
    (log : List (List Call × Option Int)) :
    invocations p (e :: log) = callsTo p e.1 + invocations p log := by
  simp [invocations]

/-- A poll invokes the callback of `p` at most once, and not at all when `p` is WAITING. -/
theorem callsTo_poll (code : Code) (fuel now : Nat) (self : Polling) (mem : Mem)
    (p : _task_ptr) :
    callsTo p (loopPolling code fuel now self mem).1 ≤ 1 ∧
      ((mem p).status = .WAITING → callsTo p (loopPolling code fuel now self mem).1 = 0) := by
  rcases poll_calls code fuel now self mem with h0 | ⟨h, _, _, hs, h1⟩
  · rw [h0]; exact ⟨Nat.zero_le _, fun _ => rfl⟩
  · rw [h1]
    unfold callsTo
    by_cases hp : h = p
    · subst hp
      refine ⟨by simp, fun hw => ?_⟩
      rw [hw] at hs
      rcases hs with hs | hs | hs <;> cases hs
    · simp [hp]

theorem waiting_never_called {code : Code} (hcode : ∀ f m, code f m = m) (fuel : Nat)
    (p : _task_ptr) : ∀ (clocks : List Nat) (self : Polling) (mem : Mem),
    (mem p).status = .WAITING → invocations p (pollLog code fuel clocks self mem) = 0 := by
  intro clocks
  induction clocks with
  | nil => intro self mem _; rfl
  | cons now rest ih =>
    intro self mem hw
    rw [pollLog_cons]
    have hc := (callsTo_poll code fuel now self mem p).2 hw
    cases hout : (loopPolling code fuel now self mem).2 with
    | error e => simp [invocations, hc]
    | ok r =>
      simp only [invocations_cons, hc, Nat.zero_add]
      apply ih
      rcases poll_status hcode hout p with h1 | ⟨h1, _⟩
      · rw [h1]; exact hw
      · rw [hw] at h1; cases h1


/-- A one-shot head that is due is WAITING after the poll, when callbacks leave the task
variables alone. -/
theorem oneshoot_head_waiting {code : Code} (hcode : ∀ f m, code f m = m) {fuel now : Nat}
    {self : Polling} {mem : Mem} {p : _task_ptr} {r : PollOut} (hh : head self = .ok p)
    (hd : (mem p).startTime ≤ now) (hs : (mem p).status = .ONESHOOT)
    (hr : (loopPolling code fuel now self mem).2 = .ok r) :
    (r.mem p).status = .WAITING := by
  obtain ⟨t, ht, hmem, _⟩ := loopPolling_adjust_inv hh hd (by rw [hs]; decide) hr
  rw [hmem]
  simp only [write, if_true]
  rw [(adjustTime_fields now fuel _ _ ht).2.2.1]
  simp only [called, hs, hcode, write, if_true]

theorem callsTo_pos {code : Code} {fuel now : Nat} {self : Polling} {mem : Mem}
    {p : _task_ptr} (h : callsTo p (loopPolling code fuel now self mem).1 ≠ 0) :
    head self = .ok p ∧ (mem p).startTime ≤ now ∧
      (loopPolling code fuel now self mem).1 = [(p, (mem p).fLoop)] := by
  rcases poll_calls code fuel now self mem with h0 | ⟨q, hq, hd, _, h1⟩
  · rw [h0] at h; exact absurd rfl h
  · by_cases hp : q = p
    · subst hp; exact ⟨hq, hd, h1⟩
    · rw [h1] at h
      exact absurd (by simp [callsTo, hp]) h

/-- C8: with callbacks that do not change task descriptors, for every task `p` and every
finite sequence of `loopPolling()` calls at any clock values (non-decreasing ones in
particular): from a state where `p` has status ONESHOOT its callback is invoked at most
once in total; a poll invokes it only when `p` is the due head; the poll in which a
ONESHOOT `p` is the due head invokes it exactly once and, when it returns, leaves the
status of `p` WAITING; and from a state where `p` is WAITING no poll invokes it again. -/
theorem oneshoot_fires_once (code : Code) (hcode : ∀ f m, code f m = m) (fuel : Nat)
    (p : _task_ptr) :
    (∀ (clocks : List Nat) (self : Polling) (mem : Mem), (mem p).status = .ONESHOOT →
      invocations p (pollLog code fuel clocks self mem) ≤ 1) ∧
    (∀ (now : Nat) (self : Polling) (mem : Mem),
      callsTo p (loopPolling code fuel now self mem).1 ≠ 0 →
      head self = .ok p ∧ (mem p).startTime ≤ now) ∧
    (∀ (now : Nat) (self : Polling) (mem : Mem), head self = .ok p →
      (mem p).startTime ≤ now → (mem p).status = .ONESHOOT →
      (loopPolling code fuel now self mem).1 = [(p, (mem p).fLoop)] ∧
      ∀ r, (loopPolling code fuel now self mem).2 = .ok r → (r.mem p).status = .WAITING) ∧
    (∀ (clocks : List Nat) (self : Polling) (mem : Mem), (mem p).status = .WAITING →
      invocations p (pollLog code fuel clocks self mem) = 0) := by
  refine ⟨?_, fun now self mem h => ⟨(callsTo_pos h).1, (callsTo_pos h).2.1⟩, ?_,
    waiting_never_called hcode fuel p⟩
  · intro clocks
    induction clocks with
    | nil => intro self mem _; exact Nat.zero_le _
    | cons now rest ih =>
      intro self mem hs
      rw [pollLog_cons]
      have hle := (callsTo_poll code fuel now self mem p).1
      cases hout : (loopPolling code fuel now self mem).2 with
      | error e => simpa [invocations] using hle
      | ok r =>
        simp only [invocations_cons]
        by_cases hc : callsTo p (loopPolling code fuel now self mem).1 = 0
        · rw [hc, Nat.zero_add]
          rcases poll_status hcode hout p with h1 | ⟨_, h2⟩
          · exact ih _ _ (by rw [h1]; exact hs)
          · rw [waiting_never_called hcode fuel p rest _ _ h2]
            exact Nat.zero_le _
        · obtain ⟨hh, hd, _⟩ := callsTo_pos hc
          have hw := oneshoot_head_waiting hcode hh hd hs hout
          rw [waiting_never_called hcode fuel p rest _ _ hw]
          exact hle
  · intro now self mem hh hd hs
    exact ⟨by rw [loopPolling_fire_eq hh hd (Or.inr (Or.inr hs))],
      fun r hr => oneshoot_head_waiting hcode hh hd hs hr⟩

/-- Witness of C8: a one-shot task and a running task, five polls. -/
theorem oneshoot_fires_once_witness :
    invocations 0 (pollLog idle 200 [100, 130, 150, 150, 200]
      ⟨[some 0, some 1], 2, 2, -100000⟩ shotMem) ≤ 1 :=
  (oneshoot_fires_once idle (fun _ _ => rfl) 200 0).1 [100, 130, 150, 150, 200]
    ⟨[some 0, some 1], 2, 2, -100000⟩ shotMem rfl

/-- A poll whose head is due leaves, when it returns, the tracked references ascending by
`startTime`: the `qsort` of `loopPolling` is reached only on this path. -/
theorem due_poll_sorted {code : Code} {fuel now : Nat} {self : Polling} {mem : Mem}
    {h : _task_ptr} {rest : List _task_ptr} {r : PollOut} (hwf : WF self)
    (ha : active self = some (h :: rest)) (hd : (mem h).startTime ≤ now)
    (hr : (loopPolling code fuel now self mem).2 = .ok r) :
    ∃ ps', active r.self = some ps' ∧ ascending r.mem ps' := by
  have hh := head_of_active ha
  by_cases hs : (mem h).status = .DELETED
  · obtain ⟨r', _, ps', hr', hmem, _, _, hact, _, hasc, _⟩ := pollDelete_ok now mem hwf ha
    rw [loopPolling_deleted_eq hh hd hs, hr'] at hr
    cases hr
    exact ⟨ps', hact, by rw [hmem]; exact hasc⟩
  · obtain ⟨t, _, hmem, hsort⟩ := loopPolling_adjust_inv hh hd hs hr
    obtain ⟨r', _, hr', _, _, _, hact, _⟩ := pollSort_ok now
      (write (called code mem h) h t) hwf ha hh
    rw [hsort] at hr'
    cases hr'
    exact ⟨_, hact, by rw [hmem]; exact qsort_ascending _ _⟩

/-- C5 (failing input): `Polling(2)`, `add` of A `{1000, 1000, f0, RUNNING}` at clock 0,
`begin()`, then `add` of B `{500, 1000, f1, RUNNING}` at clock 0, which the source allows
after `begin()`. The poll at clock 0 returns 1000 and leaves the table `[A, B]`, not
ascending by `startTime`; the poll at clock 500 then invokes no callback although B is
due, and returns 500. -/
theorem late_add_breaks_order :
    ∃ s1 m1 s2 s3 m3 r, add 5 0 (Polling.new 2) lateMem 0 = .ok (s1, m1) ∧
      begin s1 m1 = .ok s2 ∧ add 5 0 s2 m1 1 = .ok (s3, m3) ∧
      loopPolling idle 5 0 s3 m3 = ([], .ok r) ∧ r.tnext = 1000 ∧
      active r.self = some [0, 1] ∧ (r.mem 0).startTime = 1000 ∧
      (r.mem 1).startTime = 500 ∧ ¬ ascending r.mem [0, 1] ∧
      pollLog idle 5 [500] r.self r.mem = [([], some 500)] :=
  ⟨_, _, _, _, _, _, rfl, rfl, rfl, rfl, by decide, rfl, rfl, rfl,
    by decide, by decide⟩

/-- C9 (counterexample): in the scenario, `add` at clock 0 moves A from 0 to 1000, and
the first `loopPolling()` at clock 0 invokes no callback, not the one of A. -/
theorem first_poll_fires_nothing :
    ∃ s1 m1 s2 m2 s3, add 5 0 (Polling.new 2) demoMem 0 = .ok (s1, m1) ∧
      add 5 0 s1 m1 1 = .ok (s2, m2) ∧ begin s2 m2 = .ok s3 ∧
      (m2 0).startTime = 1000 ∧ (loopPolling idle 5 0 s3 m2).1 = [] ∧
      (loopPolling idle 5 0 s3 m2).1 ≠ [(0, 0)] :=
  ⟨_, _, _, _, _, rfl, rfl, rfl, rfl, rfl, by decide⟩

/-- C9 (amended): `Polling(2)`; `add` of A `{0, 1000, f0, RUNNING}` and of B
`{500, 1000, f1, RUNNING}` at clock 0; `begin()`. The first `loopPolling()` at clock 0
invokes no callback and returns 500; `loopPolling()` at clock 500 invokes the callback of B
and returns 500; `loopPolling()` at clock 1000 invokes the callback of A, for the first
time, and returns 500. -/
theorem scenario_two_tasks :
    ∃ s1 m1 s2 m2 s3, add 5 0 (Polling.new 2) demoMem 0 = .ok (s1, m1) ∧
      add 5 0 s1 m1 1 = .ok (s2, m2) ∧ begin s2 m2 = .ok s3 ∧
      pollLog idle 5 [0, 500, 1000] s3 m2 =
        [([], some 500), ([(1, 1)], some 500), ([(0, 0)], some 500)] :=
  ⟨_, _, _, _, _, rfl, rfl, rfl, by decide⟩

/-! ## One periodic task -/

theorem active_single_head {self : Polling} {p q : _task_ptr} (ha : active self = some [p])
    (hq : head self = .ok q) : q = p := by
  rw [head_of_active ha] at hq
  cases hq
  rfl

/-- A poll of a table that holds the single RUNNING task `p`, due, whose callback leaves
the descriptor of `p` alone: it fires, returns, and moves `startTime` past `now`. -/
theorem solo_fire {code : Code} {fuel now : Nat} {self : Polling} {mem : Mem}
    {p : _task_ptr} (hwf : WF self) (ha : active self = some [p])
    (hs : (mem p).status = .RUNNING) (hP : 0 < (mem p).period)
    (hcb : ∀ m, code (mem p).fLoop m p = m p) (hd : (mem p).startTime ≤ now)
    (hov : now + (mem p).period < ULONG) (hfuel : now + 2 ≤ fuel) :
    ∃ r, loopPolling code fuel now self mem = ([(p, (mem p).fLoop)], .ok r) ∧
      WF r.self ∧ active r.self = some [p] ∧
      r.mem p = { mem p with startTime := ((mem p).startTime +
        skips now (mem p).startTime (mem p).period * (mem p).period) } ∧
      r.tnext = tnextOf ((mem p).startTime +
        skips now (mem p).startTime (mem p).period * (mem p).period) now := by
  have hh := head_of_active ha
  have hcalled : called code mem p p = mem p := by
    simp only [called, hs, hcb]
  have hadj := adjustTime_eq now fuel (called code mem p p) (by rw [hcalled]; exact hP)
    (by rw [hcalled]; exact no_wrap_of_le hP hov) (by omega) (by omega)
  rw [hcalled] at hadj
  obtain ⟨r, q, hr, hmem, _, _, hact, hwf', hq, htn⟩ := pollSort_ok now
    (write (called code mem p) p { mem p with startTime := ((mem p).startTime +
      skips now (mem p).startTime (mem p).period * (mem p).period) }) hwf ha hh
  have hact' : active r.self = some [p] := hact
  have hqp := active_single_head hact' hq
  subst hqp
  refine ⟨r, ?_, hwf', hact', ?_, ?_⟩
  · rw [loopPolling_fire_eq hh hd (Or.inl hs)]
    have := pollAdjust_eq (called code mem q) hh
      (show _adjustTime now fuel (called code mem q q) = _ by rw [hcalled]; exact hadj)
    rw [this, hr]
  · rw [hmem]; simp [write]
  · rw [htn]; simp [write]


theorem ticks_succ (P n t0 : Nat) : ticks P (n + 1) t0 = t0 :: ticks P n (t0 + P) := rfl

/-- C10 (amended): for a scheduler holding exactly one task `p`, with status RUNNING and
period `P > 0`, whose callback does not change the descriptor of `p`, and
`loopPolling()` called at the clock values `t0, t0 + P, ..., t0 + (n - 1) * P` with no
overflow (`t0 + n * P < 2 ^ 32`, `P < 2 ^ 31`): every poll returns; the poll at
`t0 + i * P` invokes the callback exactly once when the task is due by then
(`startTime <= t0 + i * P`), hence again at every later poll, and invokes nothing before;
and the value returned by every firing poll is in `1 .. P`. -/
theorem periodic_single_task (code : Code) (fuel P : Nat) (p : _task_ptr) (f : loopFunction)
    (hP : 0 < P) (hP31 : P < 2 ^ 31) (hcb : ∀ m, code f m p = m p) :
    ∀ (n t0 : Nat) (self : Polling) (mem : Mem), WF self → active self = some [p] →
      (mem p).status = .RUNNING → (mem p).period = P → (mem p).fLoop = f →
      t0 + n * P < ULONG → t0 + n * P + 2 ≤ fuel →
      (pollLog code fuel (ticks P n t0) self mem).length = n ∧
      ∀ i, i < n → ∃ cs v, (pollLog code fuel (ticks P n t0) self mem)[i]? = some (cs, some v) ∧
        ((mem p).startTime ≤ t0 + i * P → cs = [(p, f)] ∧ 1 ≤ v ∧ v ≤ (P : Int)) ∧
        (t0 + i * P < (mem p).startTime → cs = []) := by
  intro n
  induction n with
  | zero =>
    intro t0 self mem _ _ _ _ _ _ _
    exact ⟨rfl, fun i hi => absurd hi (Nat.not_lt_zero i)⟩
  | succ n ih =>
    intro t0 self mem hwf ha hs hper hf hov hfuel
    rw [Nat.succ_mul] at hov hfuel
    rw [ticks_succ, pollLog_cons]
    by_cases hd : (mem p).startTime ≤ t0
    · obtain ⟨r, hr, hwf', hact', hmem, htn⟩ := solo_fire hwf ha hs (by rw [hper]; exact hP)
        (by rw [hf]; exact hcb) hd (by rw [hper]; omega) (show t0 + 2 ≤ fuel by omega)
      rw [hper] at hmem htn
      have hgt : t0 < (mem p).startTime + skips t0 (mem p).startTime P * P := skips_gt hP
      have hle : (mem p).startTime + skips t0 (mem p).startTime P * P ≤ t0 + P :=
        skips_le hP hd
      have hstart : (r.mem p).startTime =
          (mem p).startTime + skips t0 (mem p).startTime P * P := by rw [hmem]
      obtain ⟨hlen, hall⟩ := ih (t0 + P) r.self r.mem hwf' hact' (by rw [hmem]; exact hs)
        (by rw [hmem]; exact hper) (by rw [hmem]; exact hf) (by omega) (by omega)
      rw [hr]
      dsimp only
      refine ⟨by simp only [List.length_cons, hlen], fun i hi => ?_⟩
      cases i with
      | zero =>
        refine ⟨[(p, f)], r.tnext, by rw [hf]; exact List.getElem?_cons_zero,
          fun _ => ⟨rfl, ?_⟩, fun h => by omega⟩
        rw [htn, tnextOf_pos hgt (by omega)]
        omega
      | succ i =>
        obtain ⟨cs, v, hget, hfire, _⟩ := hall i (by omega)
        refine ⟨cs, v, ?_, fun _ => hfire (by rw [hstart]; omega), fun h => ?_⟩
        · simpa using hget
        · rw [Nat.succ_mul] at h; omega
    · have hh := head_of_active ha
      rw [loopPolling_not_due_eq hh (by omega)]
      dsimp only
      obtain ⟨hlen, hall⟩ := ih (t0 + P) self mem hwf ha hs hper hf (by omega) (by omega)
      refine ⟨by simp only [List.length_cons, hlen], fun i hi => ?_⟩
      cases i with
      | zero =>
        exact ⟨[], _, List.getElem?_cons_zero, fun h => by omega, fun _ => rfl⟩
      | succ i =>
        obtain ⟨cs, v, hget, hfire, hnot⟩ := hall i (by omega)
        refine ⟨cs, v, by simpa using hget, fun h => hfire ?_, fun h => hnot ?_⟩
        · rw [Nat.succ_mul] at h; omega
        · rw [Nat.succ_mul] at h; omega

/-- Witness of C10: one task of period 1000 polled at clocks 0, 1000, 2000. -/
theorem periodic_single_task_witness :
    (pollLog idle 3002 (ticks 1000 3 0) ⟨[some 0], 1, 1, -100000⟩ soloMem).length = 3 ∧
      ∀ i, i < 3 → ∃ cs v,
        (pollLog idle 3002 (ticks 1000 3 0) ⟨[some 0], 1, 1, -100000⟩ soloMem)[i]?
          = some (cs, some v) ∧
        ((soloMem 0).startTime ≤ 0 + i * 1000 → cs = [(0, 7)] ∧ 1 ≤ v ∧ v ≤ ((1000 : Nat) : Int)) ∧
        (0 + i * 1000 < (soloMem 0).startTime → cs = []) :=
  periodic_single_task idle 3002 1000 0 7 (by decide) (by decide) (fun _ => rfl) 3 0
    ⟨[some 0], 1, 1, -100000⟩ soloMem (by decide) rfl rfl rfl rfl
    (by decide) (by decide)

/-- C10 (counterexample): `Polling(1)`, `add` of the task `{1000, 1000, f7, RUNNING}` at
clock 0, `begin()`, polls at clocks 1000, 2000, 3000, with a callback that sets
`startTime = 1000000`: the task keeps status RUNNING and period 1000, the first poll fires
and returns 999000, which is above the period, and the two polls after it fire nothing. -/
theorem postponed_task_skips_periods :
    ∃ s1 m1 s2, add 5 0 (Polling.new 1) soloMem 0 = .ok (s1, m1) ∧
      begin s1 m1 = .ok s2 ∧
      pollLog postponer 5 (ticks 1000 3 1000) s2 m1 =
        [([(0, 7)], some 999000), ([], some 998000), ([], some 997000)] :=
  ⟨_, _, _, rfl, rfl, by decide⟩

/-- C11 (failing input): `Polling(1)`, `add` of a task marked DELETED `{100, 1000, f0}`
at clock 0, `begin()`, then polls at clocks 150 and 200. The first poll removes the task
and leaves the count 0, with slot 0 still pointing to the task; the second poll finds
this stale head due and DELETED again, `_size--` takes the count from 0 to 255, above
the capacity 1, and the read of `_tasks[255]` that follows is outside the block. -/
theorem count_wraps_below_zero :
    ∃ s1 m1 s2 r, add 5 0 (Polling.new 1) wasteMem 0 = .ok (s1, m1) ∧
      begin s1 m1 = .ok s2 ∧ loopPolling idle 5 150 s2 m1 = ([], .ok r) ∧
      r.self._max = 1 ∧ getSize r.self = 0 ∧ head r.self = .ok 0 ∧
      (r.self._size + 255) % 256 = 255 ∧
      tableReads 200 r.self r.mem = [(0, 0), (255, 255)] ∧
      loopPolling idle 5 200 r.self r.mem = ([], .error .outOfBounds) :=
  ⟨_, _, _, _, rfl, rfl, rfl, rfl, rfl, rfl, by decide, by decide, rfl⟩

/-- C12: when the scheduler is full (count = capacity), `add(t)` is a complete no-op,
whatever the clock and the descriptor: it returns at once, the object (count, table
contents and order) is unchanged and so is every task variable, `t.startTime` included. -/
theorem add_when_full (fuel now : Nat) (self : Polling) (mem : Mem) (t : _task_ptr)
    (hfull : self._size = self._max) : add fuel now self mem t = .ok (self, mem) :=
  add_full fuel now mem t (by omega)

/-- Witness of C12: a full table of one slot, and a task that is due with period 0. -/
theorem add_when_full_witness :
    add 0 5 ⟨[some 0], 1, 1, -100000⟩ stuckMem 1 = .ok (⟨[some 0], 1, 1, -100000⟩, stuckMem) :=
  add_when_full 0 5 ⟨[some 0], 1, 1, -100000⟩ stuckMem 1 rfl

/-- C15 (counterexample): `Polling(0)` is not rejected: the constructor yields the
well-formed object with count 0, capacity 0 and an empty block. -/
theorem zero_capacity_accepted :
    Polling.new 0 = ⟨[], 0, 0, -100000⟩ ∧ WF (Polling.new 0) ∧
      getSize (Polling.new 0) = 0 ∧ (Polling.new 0)._max = 0 :=
  ⟨rfl, by decide, rfl, rfl⟩

/-- C15 (amended): constructing a scheduler with capacity zero does not fail:
`Polling(0)` yields an object with count 0 and capacity 0, on which every `add()` is
dropped, leaving the object and the task variables as they are, and on which `begin()`
returns and changes nothing. -/
theorem zero_capacity_object (fuel now : Nat) (mem : Mem) (t : _task_ptr) :
    getSize (Polling.new 0) = 0 ∧ (Polling.new 0)._max = 0 ∧
      add fuel now (Polling.new 0) mem t = .ok (Polling.new 0, mem) ∧
      begin (Polling.new 0) mem = .ok (Polling.new 0) :=
  ⟨rfl, rfl, rfl, rfl⟩

/-- C19 (failing input): `Polling(1)`, `add` of a task marked DELETED `{100, 1000, f0}`
at clock 0, `begin()`, then polls at clocks 150 and 200. In the poll that removes the
task, the swap-remove reads `_tasks[0]` when the count is already 0, and so does the read
for the returned value; in the poll after it the due test reads `_tasks[0]` with count 0,
the stale head is DELETED, and the swap-remove reads `_tasks[255]`, outside the block of
one slot. -/
theorem reads_outside_active_set :
    ∃ s1 m1 s2 r, add 5 0 (Polling.new 1) wasteMem 0 = .ok (s1, m1) ∧
      begin s1 m1 = .ok s2 ∧ getSize s2 = 1 ∧
      tableReads 150 s2 m1 = [(0, 1), (0, 0), (0, 0)] ∧
      (loopPolling idle 5 150 s2 m1).2 = .ok r ∧ r.tnext = -50 ∧
      tableReads 200 r.self r.mem = [(0, 0), (255, 255)] ∧ r.self._tasks.length = 1 ∧
      (loopPolling idle 5 200 r.self r.mem).2 = .error .outOfBounds :=
  ⟨_, _, _, _, rfl, rfl, rfl, by decide, rfl, by decide, by decide, rfl, rfl⟩

theorem compareTask_ne_zero (mem : Mem) (a b : _task_ptr) : _compareTask mem a b ≠ 0 := by
  unfold _compareTask
  split <;> decide

/-- C13: for every well-formed scheduler state, with tracked references `ps`, `begin()`
returns, leaves the count and the capacity as they are, touches no task variable (it has
none in its result), and leaves tracked a permutation of `ps` (nothing lost, nothing
duplicated) ordered ascending by `startTime`; this holds also for equal `startTime`s, for
which the comparator answers `-1` both ways and never `0`. -/
theorem begin_sorts (self : Polling) (mem : Mem) (ps : List _task_ptr) (hwf : WF self)
    (ha : active self = some ps) :
    ∃ self' ps', begin self mem = .ok self' ∧ getSize self' = getSize self ∧
      self'._max = self._max ∧ active self' = some ps' ∧ ps'.Perm ps ∧ ascending mem ps' ∧
      (∀ a b, _compareTask mem a b ≠ 0) ∧
      (∀ a b, (mem a).startTime = (mem b).startTime →
        _compareTask mem a b = -1 ∧ _compareTask mem b a = -1) := by
  obtain ⟨self', hs, hsz, hmx, hact, _⟩ := sortTasks_ok mem hwf ha
  refine ⟨self', _, hs, by unfold getSize; rw [hsz], hmx, hact, qsort_perm mem ps,
    qsort_ascending mem ps, compareTask_ne_zero mem, fun a b hab => ?_⟩
  unfold _compareTask
  rw [hab]
  simp

/-- Witness of C13: three tracked tasks with the same `startTime`. -/
theorem begin_sorts_witness :
    ∃ self' ps', begin ⟨[some 2, some 0, some 1], 3, 3, -100000⟩ soloMem = .ok self' ∧
      getSize self' = getSize ⟨[some 2, some 0, some 1], 3, 3, -100000⟩ ∧
      self'._max = 3 ∧ active self' = some ps' ∧ ps'.Perm [2, 0, 1] ∧
      ascending soloMem ps' ∧ (∀ a b, _compareTask soloMem a b ≠ 0) ∧
      (∀ a b, (soloMem a).startTime = (soloMem b).startTime →
        _compareTask soloMem a b = -1 ∧ _compareTask soloMem b a = -1) :=
  begin_sorts ⟨[some 2, some 0, some 1], 3, 3, -100000⟩ soloMem [2, 0, 1] (by decide) rfl

/-! ## Two tasks due at the same instant -/

/-- In an ascending list the task that is strictly earlier than all others is the head. -/
theorem head_of_ascending {mem : Mem} {ps : List _task_ptr} {y : _task_ptr}
    (hasc : ascending mem ps) (hy : y ∈ ps)
    (hmin : ∀ z ∈ ps, z ≠ y → (mem y).startTime < (mem z).startTime) :
    ∃ tl, ps = y :: tl := by
  cases ps with
  | nil => simp at hy
  | cons h tl =>
    by_cases hh : h = y
    · exact ⟨tl, by rw [hh]⟩
    · have hlt := hmin h (List.mem_cons_self _ _) hh
      have hyt : y ∈ tl := by
        rcases List.mem_cons.mp hy with h1 | h1
        · exact absurd h1.symm hh
        · exact h1
      have hle := List.rel_of_sorted_cons hasc y hyt
      omega

/-- A poll whose head is a due RUNNING task, with callbacks that leave the task variables
alone, a positive period and no wrap: it fires the head, returns, moves the head past
`now` and leaves the table sorted. -/
theorem fire_step {code : Code} (hcode : ∀ f m, code f m = m) {fuel now : Nat}
    {self : Polling} {mem : Mem} {h : _task_ptr} {ps : List _task_ptr} (hwf : WF self)
    (ha : active self = some (h :: ps)) (hs : (mem h).status = .RUNNING)
    (hP : 0 < (mem h).period) (hd : (mem h).startTime ≤ now)
    (hov : now + (mem h).period < ULONG) (hfuel : now + 2 ≤ fuel) :
    ∃ r, loopPolling code fuel now self mem = ([(h, (mem h).fLoop)], .ok r) ∧
      WF r.self ∧
      r.mem = write mem h { mem h with startTime := ((mem h).startTime +
        skips now (mem h).startTime (mem h).period * (mem h).period) } ∧
      active r.self = some (qsort (_compareTask r.mem) (h :: ps)) := by
  have hh := head_of_active ha
  have hcalled : called code mem h = mem := by
    simp only [called, hs, hcode]
  have hadj := adjustTime_eq now fuel (mem h) hP (no_wrap_of_le hP hov) (by omega) (by omega)
  obtain ⟨r, _, hr, hmem, _, _, hact, hwf', _, _⟩ := pollSort_ok now
    (write mem h { mem h with startTime := ((mem h).startTime +
      skips now (mem h).startTime (mem h).period * (mem h).period) }) hwf ha hh
  refine ⟨r, ?_, hwf', hmem, by rw [hmem]; exact hact⟩
  rw [loopPolling_fire_eq hh hd (Or.inl hs), hcalled, pollAdjust_eq mem hh hadj, hr]


/-- C14 (amended): for every well-formed scheduler whose table is `x :: y :: rest`, with
`x` and `y` two different RUNNING tasks of positive periods and the same `startTime` `t`,
every other task later than `t`, no overflow, and callbacks that do not change task
descriptors: two consecutive `loopPolling()` calls at clock `t` return, the first invokes
the callback of the head `x` exactly once, the second that of `y` exactly once, and
nothing else is invoked. Whichever of the two tasks the sort has put first is `x`. -/
theorem tied_tasks_both_run (code : Code) (hcode : ∀ f m, code f m = m) (fuel t : Nat)
    (self : Polling) (mem : Mem) (x y : _task_ptr) (rest : List _task_ptr) (hwf : WF self)
    (ha : active self = some (x :: y :: rest)) (hxy : x ≠ y)
    (hx : (mem x).status = .RUNNING) (hy : (mem y).status = .RUNNING)
    (hsx : (mem x).startTime = t) (hsy : (mem y).startTime = t)
    (hrest : ∀ z ∈ rest, t < (mem z).startTime)
    (hpx : 0 < (mem x).period) (hpy : 0 < (mem y).period)
    (hox : t + (mem x).period < ULONG) (hoy : t + (mem y).period < ULONG)
    (hfuel : t + 2 ≤ fuel) :
    (∃ v1 v2, pollLog code fuel [t, t] self mem =
      [([(x, (mem x).fLoop)], some v1), ([(y, (mem y).fLoop)], some v2)]) ∧
    invocations x (pollLog code fuel [t, t] self mem) = 1 ∧
    invocations y (pollLog code fuel [t, t] self mem) = 1 := by
  obtain ⟨r, hr, hwf1, hmem, hact⟩ := fire_step hcode hwf ha hx hpx (by omega) hox hfuel
  have hgt : t < (r.mem x).startTime := by
    rw [hmem]
    simp only [write, if_true]
    have := @skips_gt t (mem x).startTime (mem x).period hpx
    omega
  have hmy : r.mem y = mem y := by
    rw [hmem]
    simp only [write, if_neg (Ne.symm hxy)]
  have hperm := qsort_perm r.mem (x :: y :: rest)
  have hymem : y ∈ qsort (_compareTask r.mem) (x :: y :: rest) :=
    hperm.mem_iff.mpr (by simp)
  obtain ⟨tl, htl⟩ := head_of_ascending (qsort_ascending r.mem (x :: y :: rest)) hymem
    (by
      intro z hz hzy
      rw [hmy, hsy]
      rcases List.mem_cons.mp (hperm.mem_iff.mp hz) with h1 | h1
      · rw [h1]; exact hgt
      · rcases List.mem_cons.mp h1 with h2 | h2
        · exact absurd h2 hzy
        · have hzx : z ≠ x := by
            intro hzx
            have := hrest z h2
            rw [hzx, hsx] at this
            omega
          rw [hmem]
          simp only [write, if_neg hzx]
          exact hrest z h2)
  rw [htl] at hact
  have hy1 : (r.mem y).status = .RUNNING := by rw [hmy]; exact hy
  have hpy1 : 0 < (r.mem y).period := by rw [hmy]; exact hpy
  have hd1 : (r.mem y).startTime ≤ t := by rw [hmy]; omega
  have hoy1 : t + (r.mem y).period < ULONG := by rw [hmy]; exact hoy
  obtain ⟨r2, hr2, _⟩ := fire_step hcode hwf1 hact hy1 hpy1 hd1 hoy1 hfuel
  have hlog : pollLog code fuel [t, t] self mem =
      [([(x, (mem x).fLoop)], some r.tnext), ([(y, (mem y).fLoop)], some r2.tnext)] := by
    rw [pollLog_cons, hr]
    dsimp only
    rw [pollLog_cons, hr2]
    dsimp only
    rw [hmy]
    rfl
  refine ⟨⟨_, _, hlog⟩, ?_, ?_⟩
  · rw [hlog]
    simp [invocations, callsTo, hxy, Ne.symm hxy]
  · rw [hlog]
    simp [invocations, callsTo, hxy, Ne.symm hxy]

/-- Witness of C14: the tasks at addresses 0 and 1, both `{1000, 1000, RUNNING}`, polled
twice at clock 1000. -/
theorem tied_tasks_both_run_witness :
    (∃ v1 v2, pollLog idle 1002 [1000, 1000] ⟨[some 0, some 1], 2, 2, -100000⟩ twinMem =
      [([(0, (twinMem 0).fLoop)], some v1), ([(1, (twinMem 1).fLoop)], some v2)]) ∧
    invocations 0 (pollLog idle 1002 [1000, 1000] ⟨[some 0, some 1], 2, 2, -100000⟩ twinMem) = 1 ∧
    invocations 1 (pollLog idle 1002 [1000, 1000] ⟨[some 0, some 1], 2, 2, -100000⟩ twinMem) = 1 :=
  tied_tasks_both_run idle (fun _ _ => rfl) 1002 1000 ⟨[some 0, some 1], 2, 2, -100000⟩
    twinMem 0 1 [] (by decide) rfl (by decide) rfl rfl rfl rfl (by simp) (by decide)
    (by decide) (by decide) (by decide) (by decide)

/-- C14 (counterexample): `Polling(2)`, two tasks `{1000, 1000, RUNNING}` added at clock 0,
`begin()`, two polls at clock 1000, with callbacks that set the status of every other task
to WAITING: the first poll invokes the callback of the head `p`, the second poll finds the
other task due but WAITING and invokes nothing, so that task is not run. -/
theorem tied_task_put_to_rest :
    ∃ s1 m1 s2 m2 s3 p, add 5 0 (Polling.new 2) twinMem 0 = .ok (s1, m1) ∧
      add 5 0 s1 m1 1 = .ok (s2, m2) ∧ begin s2 m2 = .ok s3 ∧
      (m2 0).startTime = 1000 ∧ (m2 1).startTime = 1000 ∧
      (m2 0).status = .RUNNING ∧ (m2 1).status = .RUNNING ∧
      pollLog hush 5 [1000, 1000] s3 m2 = [([(p, p)], some 0), ([], some 1000)] :=
  ⟨_, _, _, _, _, 0, rfl, rfl, rfl, rfl, rfl, rfl, rfl, by decide⟩

/-! ## The smallest gap of the debug build -/

theorem sortTasks_minGap {self self1 : Polling} {mem : Mem}
    (h : sortTasks self mem = .ok self1) : self1._minGap = self._minGap := by
  unfold sortTasks at h
  split at h
  · cases h; rfl
  · split at h
    · cases h
    · split at h
      · cases h
      · cases h; rfl

theorem pollSort_minGap {now : Nat} {self : Polling} {mem : Mem} {r : PollOut}
    (h : pollSort now self mem = .ok r) : r.self._minGap = track self._minGap r.tnext := by
  unfold pollSort at h
  cases hs : sortTasks self mem with
  | error e => simp only [hs] at h; cases h
  | ok self1 =>
    simp only [hs] at h
    cases hh : head self1 with
    | error e => simp only [hh] at h; cases h
    | ok p =>
      simp only [hh] at h
      obtain ⟨h1, _, q, hq, h3⟩ := pollReturn_inv h
      have hq' : head self1 = .ok q := hq
      rw [hh] at hq'
      cases hq'
      rw [h1, h3, ← sortTasks_minGap hs]
      rfl

/-- What a returning poll does to `_minGap`: it tracks the returned value when the head
was due, and leaves `_minGap` alone when it was not. -/
theorem poll_minGap {code : Code} {fuel now : Nat} {self : Polling} {mem : Mem}
    {r : PollOut} (hr : (loopPolling code fuel now self mem).2 = .ok r) :
    r.self._minGap =
      if headDue now self mem then track self._minGap r.tnext else self._minGap := by
  cases hh : head self with
  | error e =>
    unfold loopPolling at hr
    simp only [hh] at hr
    cases hr
  | ok h =>
    by_cases hd : (mem h).startTime ≤ now
    · have hdue : headDue now self mem = true := by
        simp only [headDue, hh, decide_eq_true_eq]; exact hd
      rw [hdue, if_pos rfl]
      by_cases hs : (mem h).status = .DELETED
      · rw [loopPolling_deleted_eq hh hd hs] at hr
        unfold pollDelete at hr
        cases hsl : self._tasks[(self._size + 255) % 256]? with
        | none => simp only [hsl] at hr; cases hr
        | some slot =>
          simp only [hsl] at hr
          have key := pollSort_minGap hr
          exact key
      · obtain ⟨t, _, _, hsort⟩ := loopPolling_adjust_inv hh hd hs hr
        have key := pollSort_minGap hsort
        exact key
    · have hdue : headDue now self mem = false := by
        simp only [headDue, hh, decide_eq_false_iff_not]; exact hd
      rw [hdue]
      rw [loopPolling_not_due_eq hh (by omega)] at hr
      cases hr
      rfl

theorem dueGaps_minGap (code : Code) (fuel : Nat) : ∀ (clocks : List Nat) (self : Polling)
    (mem : Mem) (s' : Polling) (vs : List Int),
    dueGaps code fuel clocks self mem = some (s', vs) →
    s'._minGap = vs.foldl track self._minGap := by
  intro clocks
  induction clocks with
  | nil =>
    intro self mem s' vs h
    simp only [dueGaps, Option.some.injEq, Prod.mk.injEq] at h
    obtain ⟨rfl, rfl⟩ := h
    rfl
  | cons now rest ih =>
    intro self mem s' vs h
    unfold dueGaps at h
    cases hout : (loopPolling code fuel now self mem).2 with
    | error e => simp only [hout] at h; cases h
    | ok r =>
      simp only [hout] at h
      cases hrec : dueGaps code fuel rest r.self r.mem with
      | none => simp only [hrec] at h; cases h
      | some sv =>
        simp only [hrec, Option.some.injEq, Prod.mk.injEq] at h
        obtain ⟨h1, h2⟩ := h
        have := ih r.self r.mem sv.1 sv.2 hrec
        rw [← h1, ← h2, this, poll_minGap hout]
        cases headDue now self mem <;> simp

/-- Tracking from a value that is not the sentinel, over values that are not the
sentinel, yields the least of them all. -/
theorem foldl_track (vs : List Int) : ∀ (g : Int), g ≠ -100000 →
    (∀ v ∈ vs, v ≠ -100000) →
    vs.foldl track g ≠ -100000 ∧ vs.foldl track g ≤ g ∧
      (∀ v ∈ vs, vs.foldl track g ≤ v) ∧ (vs.foldl track g = g ∨ vs.foldl track g ∈ vs) := by
  induction vs with
  | nil => intro g hg _; exact ⟨hg, le_refl _, fun v hv => by simp at hv, Or.inl rfl⟩
  | cons a vs ih =>
    intro g hg hne
    have ha : a ≠ -100000 := hne a (List.mem_cons_self _ _)
    have hta : track g a = if a < g then a else g := by
      unfold track; rw [if_neg hg]
    have htne : track g a ≠ -100000 := by
      rw [hta]; split <;> assumption
    obtain ⟨h1, h2, h3, h4⟩ := ih (track g a) htne
      (fun v hv => hne v (List.mem_cons_of_mem _ hv))
    have hle : track g a ≤ g ∧ track g a ≤ a := by
      rw [hta]; split <;> omega
    simp only [List.foldl_cons]
    refine ⟨h1, le_trans h2 hle.1, ?_, ?_⟩
    · intro v hv
      rcases List.mem_cons.mp hv with hv | hv
      · rw [hv]; exact le_trans h2 hle.2
      · exact h3 v hv
    · rcases h4 with h4 | h4
      · rw [h4, hta]
        split
        · exact Or.inr (List.mem_cons_self _ _)
        · exact Or.inl rfl
      · exact Or.inr (List.mem_cons_of_mem _ h4)

/-- The outcome of a call with the field `_minGap` of the object it leaves replaced. -/
theorem sortTasks_gap (g : Int) (self : Polling) (mem : Mem) :
    sortTasks { self with _minGap := g } mem =
      match sortTasks self mem with
      | .error e => .error e
      | .ok s1 => .ok { s1 with _minGap := g } := by
  unfold sortTasks
  dsimp only
  by_cases h1 : self._size < 2
  · simp only [if_pos h1]
  · simp only [if_neg h1]
    by_cases h2 : self._tasks.length < self._size
    · simp only [if_pos h2]
    · simp only [if_neg h2]
      cases slots (List.take self._size self._tasks) <;> rfl

theorem pollSort_gap (g : Int) (now : Nat) (self : Polling) (mem : Mem) :
    pollSort now { self with _minGap := g } mem =
      match pollSort now self mem with
      | .error e => .error e
      | .ok r => .ok { r with self := { r.self with _minGap := track g r.tnext } } := by
  unfold pollSort
  rw [sortTasks_gap]
  cases sortTasks self mem with
  | error e => rfl
  | ok s1 =>
    dsimp only
    have hh : head { s1 with _minGap := g } = head s1 := rfl
    rw [hh]
    cases h1 : head s1 with
    | error e => rfl
    | ok p =>
      dsimp only
      unfold pollReturn
      have hh2 : ∀ x : Int, head { s1 with _minGap := x } = head s1 := fun _ => rfl
      simp only [hh2, h1]
      rfl


theorem pollAdjust_gap (g : Int) (fuel now : Nat) (self : Polling) (mem : Mem) :
    pollAdjust fuel now { self with _minGap := g } mem =
      match pollAdjust fuel now self mem with
      | .error e => .error e
      | .ok r => .ok { r with self := { r.self with _minGap := track g r.tnext } } := by
  unfold pollAdjust
  have hh : head { self with _minGap := g } = head self := rfl
  rw [hh]
  cases head self with
  | error e => rfl
  | ok p =>
    dsimp only
    cases adjustAt fuel now mem p with
    | error e => rfl
    | ok m1 => exact pollSort_gap g now self m1

theorem pollDelete_gap (g : Int) (now : Nat) (self : Polling) (mem : Mem) :
    pollDelete now { self with _minGap := g } mem =
      match pollDelete now self mem with
      | .error e => .error e
      | .ok r => .ok { r with self := { r.self with _minGap := track g r.tnext } } := by
  unfold pollDelete
  dsimp only
  cases self._tasks[(self._size + 255) % 256]? with
  | none => rfl
  | some slot =>
    exact pollSort_gap g now
      { self with _size := (self._size + 255) % 256, _tasks := self._tasks.set 0 slot } mem

/-- The value of `_minGap` has no part in what a poll does: with another value the same
callbacks are invoked and the poll leaves the same table, count, task variables and
returned value. -/
theorem loopPolling_gap (g : Int) {code : Code} {fuel now : Nat} {self : Polling}
    {mem : Mem} {r : PollOut} (hr : (loopPolling code fuel now self mem).2 = .ok r) :
    ∃ r', loopPolling code fuel now { self with _minGap := g } mem =
        ((loopPolling code fuel now self mem).1, .ok r') ∧
      r'.mem = r.mem ∧ r'.tnext = r.tnext ∧ r'.self._tasks = r.self._tasks ∧
      r'.self._size = r.self._size ∧ r'.self._max = r.self._max := by
  have hhg : head { self with _minGap := g } = head self := rfl
  cases hh : head self with
  | error e =>
    unfold loopPolling at hr
    simp only [hh] at hr
    cases hr
  | ok h =>
    have hh' : head { self with _minGap := g } = .ok h := by rw [hhg, hh]
    by_cases hd : (mem h).startTime ≤ now
    · cases hst : (mem h).status with
      | DELETED =>
        rw [loopPolling_deleted_eq hh hd hst] at hr ⊢
        rw [loopPolling_deleted_eq hh' hd hst, pollDelete_gap]
        dsimp only at hr ⊢
        rw [hr]
        exact ⟨_, rfl, rfl, rfl, rfl, rfl, rfl⟩
      | WAITING =>
        rw [loopPolling_waiting_eq hh hd hst] at hr ⊢
        rw [loopPolling_waiting_eq hh' hd hst, pollAdjust_gap]
        dsimp only at hr ⊢
        rw [hr]
        exact ⟨_, rfl, rfl, rfl, rfl, rfl, rfl⟩
      | RUNNING =>
        rw [loopPolling_fire_eq hh hd (Or.inl hst)] at hr ⊢
        rw [loopPolling_fire_eq hh' hd (Or.inl hst), pollAdjust_gap]
        dsimp only at hr ⊢
        rw [hr]
        exact ⟨_, rfl, rfl, rfl, rfl, rfl, rfl⟩
      | ONTIME =>
        rw [loopPolling_fire_eq hh hd (Or.inr (Or.inl hst))] at hr ⊢
        rw [loopPolling_fire_eq hh' hd (Or.inr (Or.inl hst)), pollAdjust_gap]
        dsimp only at hr ⊢
        rw [hr]
        exact ⟨_, rfl, rfl, rfl, rfl, rfl, rfl⟩
      | ONESHOOT =>
        rw [loopPolling_fire_eq hh hd (Or.inr (Or.inr hst))] at hr ⊢
        rw [loopPolling_fire_eq hh' hd (Or.inr (Or.inr hst)), pollAdjust_gap]
        dsimp only at hr ⊢
        rw [hr]
        exact ⟨_, rfl, rfl, rfl, rfl, rfl, rfl⟩
    · rw [loopPolling_not_due_eq hh (by omega)] at hr ⊢
      rw [loopPolling_not_due_eq hh' (by omega)]
      cases hr
      exact ⟨_, rfl, rfl, rfl, rfl, rfl, rfl⟩

/-- C16 (amended): with `POLL_DEBUG` enabled, for every sequence of returning
`loopPolling()` calls made since construction or since the previous `getMinGap()` (so
from `_minGap = -100000`), with `vs` the values returned by those polls in which the head
was due, none of them the sentinel `-100000` itself: `getMinGap()` returns `-100000` when
`vs` is empty and the minimum of `vs` otherwise (polls whose head was not due are not
tracked); it resets the tracked minimum, so that an immediately following `getMinGap()`
returns `-100000`; and the tracking never changes which callback is invoked, the table,
the count, the returned value or any task field. -/
theorem minGap_of_due_polls (code : Code) (fuel : Nat) (clocks : List Nat) (self : Polling)
    (mem : Mem) (s' : Polling) (vs : List Int) (h0 : self._minGap = -100000)
    (hrun : dueGaps code fuel clocks self mem = some (s', vs))
    (hne : ∀ v ∈ vs, v ≠ -100000) :
    (vs = [] → (getMinGap s').1 = -100000) ∧
    (vs ≠ [] → (getMinGap s').1 ∈ vs ∧ ∀ v ∈ vs, (getMinGap s').1 ≤ v) ∧
    (getMinGap (getMinGap s').2).1 = -100000 ∧
    (∀ (g : Int) (now : Nat) (s : Polling) (m : Mem) (r : PollOut),
      (loopPolling code fuel now s m).2 = .ok r →
      ∃ r', loopPolling code fuel now { s with _minGap := g } m =
          ((loopPolling code fuel now s m).1, .ok r') ∧
        r'.mem = r.mem ∧ r'.tnext = r.tnext ∧ r'.self._tasks = r.self._tasks ∧
        r'.self._size = r.self._size ∧ r'.self._max = r.self._max) := by
  have hfold := dueGaps_minGap code fuel clocks self mem s' vs hrun
  rw [h0] at hfold
  refine ⟨fun hv => ?_, fun hv => ?_, rfl, fun g now s m r hr => loopPolling_gap g hr⟩
  · show s'._minGap = -100000
    rw [hfold, hv]; rfl
  · show s'._minGap ∈ vs ∧ ∀ v ∈ vs, s'._minGap ≤ v
    cases vs with
    | nil => exact absurd rfl hv
    | cons a tl =>
      have ha : a ≠ -100000 := hne a (List.mem_cons_self _ _)
      have hstep : (a :: tl).foldl track (-100000) = tl.foldl track a := by
        simp [List.foldl_cons, track]
      rw [hfold, hstep]
      obtain ⟨_, h2, h3, h4⟩ := foldl_track tl a ha
        (fun v hv' => hne v (List.mem_cons_of_mem _ hv'))
      refine ⟨?_, fun v hv' => ?_⟩
      · rcases h4 with h4 | h4
        · rw [h4]; exact List.mem_cons_self _ _
        · exact List.mem_cons_of_mem _ h4
      · rcases List.mem_cons.mp hv' with h5 | h5
        · rw [h5]; exact h2
        · exact h3 v h5

/-- Witness of C16: one task of period 1000 due at 1000, polled at clocks 1000, 1990 and
2100: the polls at 1000 and 2100 find the head due and return 1000 and 900. -/
theorem minGap_of_due_polls_witness :
    dueGaps idle 5 [1000, 1990, 2100] ⟨[some 0], 1, 1, -100000⟩ soloMem =
        some (⟨[some 0], 1, 1, 900⟩, [1000, 900]) ∧
      (getMinGap ⟨[some 0], 1, 1, 900⟩).1 ∈ ([1000, 900] : List Int) ∧
      ∀ v ∈ ([1000, 900] : List Int), (getMinGap ⟨[some 0], 1, 1, 900⟩).1 ≤ v :=
  ⟨rfl, (minGap_of_due_polls idle 5 [1000, 1990, 2100] ⟨[some 0], 1, 1, -100000⟩ soloMem
    ⟨[some 0], 1, 1, 900⟩ [1000, 900] rfl rfl (by decide)).2.1 (by decide)⟩

/-- C16 (counterexample): `Polling(1)`, `add` of the task `{1000, 1000, f7, RUNNING}` at
clock 0, `begin()`, then polls at clocks 0 and 990: the head is not due, the polls return
1000 and 10, and `getMinGap()` then returns the sentinel `-100000`, not the minimum 10. -/
theorem idle_polls_not_tracked :
    ∃ s1 m1 s2 s3, add 5 0 (Polling.new 1) soloMem 0 = .ok (s1, m1) ∧
      begin s1 m1 = .ok s2 ∧ s2._minGap = -100000 ∧
      pollLog idle 5 [0, 990] s2 m1 = [([], some 1000), ([], some 10)] ∧
      dueGaps idle 5 [0, 990] s2 m1 = some (s3, []) ∧ (getMinGap s3).1 = -100000 :=
  ⟨_, _, _, _, rfl, rfl, rfl, by decide, rfl, rfl⟩

/-! ## Termination of the fast-forward -/

theorem skips_bound {now s p : Nat} (hp : 0 < p) : skips now s p ≤ (now - s) / p + 1 := by
  unfold skips
  by_cases h : s ≤ now
  · have h1 : now + p - s = (now - s) + p := by omega
    rw [h1, Nat.add_div_right _ hp]
  · rw [Nat.div_eq_of_lt (by omega)]
    exact Nat.zero_le _

/-- With a positive period and no wrap-around, `skips + 1` tests of the loop condition are
enough. -/
theorem adjustTime_steps (now : Nat) : ∀ (fuel : Nat) (t : task), 0 < t.period →
    (t.startTime ≤ now → t.startTime + skips now t.startTime t.period * t.period < ULONG) →
    skips now t.startTime t.period < fuel →
    _adjustTime now fuel t =
      some { t with startTime := t.startTime + skips now t.startTime t.period * t.period } := by
  intro fuel
  induction fuel with
  | zero => intro t _ _ h; exact absurd h (Nat.not_lt_zero _)
  | succ n ih =>
    intro t hp hov hf
    unfold _adjustTime
    by_cases hs : t.startTime ≤ now
    · rw [if_pos hs]
      have hk := skips_of_le hp hs
      have hov1 := hov hs
      rw [hk, Nat.add_mul, Nat.one_mul] at hov1
      have hm : (t.startTime + t.period) % ULONG = t.startTime + t.period :=
        Nat.mod_eq_of_lt (by omega)
      rw [hm]
      have key := ih { t with startTime := t.startTime + t.period } hp
        (fun _ => by simp only; omega) (by simp only; omega)
      rw [key]
      simp only [hk, Nat.add_mul, Nat.one_mul]
      congr 2
      omega
    · rw [if_neg hs, skips_of_gt hp (by omega)]
      simp

/-- With a positive period and no wrap-around, fewer tests than `skips + 1` are not
enough: the loop makes `skips` additions. -/
theorem adjustTime_short (now : Nat) : ∀ (fuel : Nat) (t : task), 0 < t.period →
    (t.startTime ≤ now → t.startTime + skips now t.startTime t.period * t.period < ULONG) →
    fuel ≤ skips now t.startTime t.period → _adjustTime now fuel t = none := by
  intro fuel
  induction fuel with
  | zero => intro t _ _ _; rfl
  | succ n ih =>
    intro t hp hov hf
    unfold _adjustTime
    by_cases hs : t.startTime ≤ now
    · rw [if_pos hs]
      have hk := skips_of_le hp hs
      have hov1 := hov hs
      rw [hk, Nat.add_mul, Nat.one_mul] at hov1
      have hm : (t.startTime + t.period) % ULONG = t.startTime + t.period :=
        Nat.mod_eq_of_lt (by omega)
      rw [hm]
      exact ih { t with startTime := t.startTime + t.period } hp
        (fun _ => by simp only; omega) (by simp only; omega)
    · rw [skips_of_gt hp (by omega)] at hf
      omega

/-- With period 0 a task that is due stays due: the loop never ends. -/
theorem adjustTime_zero_period (now : Nat) (hnow : now < ULONG) : ∀ (fuel : Nat) (t : task),
    t.period = 0 → t.startTime ≤ now → _adjustTime now fuel t = none := by
  intro fuel
  induction fuel with
  | zero => intro t _ _; rfl
  | succ n ih =>
    intro t hp hs
    unfold _adjustTime
    rw [if_pos hs]
    have hm : (t.startTime + t.period) % ULONG = t.startTime := by
      rw [hp, Nat.add_zero]; exact Nat.mod_eq_of_lt (by omega)
    rw [hm]
    exact ih { t with startTime := t.startTime } hp hs

/-- At the last clock value every 32-bit `startTime` is due: the loop never ends. -/
theorem adjustTime_last_clock : ∀ (fuel : Nat) (t : task),
    _adjustTime 4294967295 fuel t = none ∨ ULONG ≤ t.startTime := by
  intro fuel
  induction fuel with
  | zero => intro t; exact Or.inl rfl
  | succ n ih =>
    intro t
    by_cases hs : t.startTime ≤ 4294967295
    · left
      unfold _adjustTime
      rw [if_pos hs]
      rcases ih { t with startTime := (t.startTime + t.period) % ULONG } with h | h
      · exact h
      · have := Nat.mod_lt (t.startTime + t.period) (show 0 < ULONG by decide)
        simp only at h
        omega
    · right
      unfold ULONG
      omega

/-- C17 (amended): with `startTime`, `period` and the clock 32-bit unsigned values
(addition modulo `2 ^ 32`) and the clock constant, for every task with `period > 0`
whose sums do not wrap (`startTime + (floor((now - startTime) / period) + 1) * period`
below `2 ^ 32` when `startTime <= now`), the loop of `_adjustTime` terminates after
exactly `k` additions, `k` the least number with `startTime + k * period > now` and
`k <= floor((now - startTime) / period) + 1`, and leaves `startTime > now`; with a zero
period and `startTime <= now` it does not terminate. -/
theorem adjustTime_terminates (now : Nat) (t : task) (hnow : now < ULONG)
    (hp : 0 < t.period)
    (hov : t.startTime ≤ now →
      t.startTime + ((now - t.startTime) / t.period + 1) * t.period < ULONG) :
    (∃ k, k ≤ (now - t.startTime) / t.period + 1 ∧
      _adjustTime now (k + 1) t = some { t with startTime := t.startTime + k * t.period } ∧
      (∀ fuel, fuel ≤ k → _adjustTime now fuel t = none) ∧
      now < t.startTime + k * t.period ∧
      (∀ j, now < t.startTime + j * t.period → k ≤ j)) ∧
    (∀ (z : task) (fuel : Nat), z.period = 0 → z.startTime ≤ now →
      _adjustTime now fuel z = none) := by
  have hb := @skips_bound now t.startTime t.period hp
  have hov' : t.startTime ≤ now →
      t.startTime + skips now t.startTime t.period * t.period < ULONG := by
    intro h
    have := Nat.mul_le_mul_right t.period hb
    have := hov h
    omega
  refine ⟨⟨skips now t.startTime t.period, hb, ?_, ?_, skips_gt hp,
    fun j hj => skips_min hp j hj⟩, fun z fuel hz hs => adjustTime_zero_period now hnow fuel z hz hs⟩
  · exact adjustTime_steps now _ t hp hov' (Nat.lt_succ_self _)
  · intro fuel hf
    exact adjustTime_short now fuel t hp hov' hf

/-- Witness of C17: the task `{0, 1000}` at clock 2500: three additions. -/
theorem adjustTime_terminates_witness :
    (∃ k, k ≤ (2500 - (demoMem 0).startTime) / (demoMem 0).period + 1 ∧
      _adjustTime 2500 (k + 1) (demoMem 0) =
        some { demoMem 0 with startTime := (demoMem 0).startTime + k * (demoMem 0).period } ∧
      (∀ fuel, fuel ≤ k → _adjustTime 2500 fuel (demoMem 0) = none) ∧
      2500 < (demoMem 0).startTime + k * (demoMem 0).period ∧
      (∀ j, 2500 < (demoMem 0).startTime + j * (demoMem 0).period → k ≤ j)) ∧
    (∀ (z : task) (fuel : Nat), z.period = 0 → z.startTime ≤ 2500 →
      _adjustTime 2500 fuel z = none) :=
  adjustTime_terminates 2500 (demoMem 0) (by decide) (by decide) (fun _ => by decide)

/-- C17 (counterexample): at the clock value `4294967295` the task `{0, 1}`, of period 1,
is never past the clock: no number of loop tests ends the loop of `_adjustTime`. -/
theorem last_clock_never_ends :
    ¬ ∃ fuel t', _adjustTime 4294967295 fuel ⟨0, 1, 0, .RUNNING⟩ = some t' := by
  rintro ⟨fuel, t', h⟩
  rcases adjustTime_last_clock fuel ⟨0, 1, 0, .RUNNING⟩ with h1 | h1
  · rw [h1] at h; cases h
  · exact absurd h1 (by decide)

/-- C18 (amended): with `unsigned long` and `long` both 32 bits wide, for every poll that
returns, with `p` the head it leaves: if `p.startTime > now` by less than `2 ^ 31`, the
returned value is the positive number `p.startTime - now`; if `p.startTime <= now` by at
most `2 ^ 31`, it is `-(now - p.startTime)`. -/
theorem loopPolling_value (code : Code) (fuel now : Nat) (self : Polling) (mem : Mem)
    (r : PollOut) (hr : (loopPolling code fuel now self mem).2 = .ok r) :
    ∃ p, head r.self = .ok p ∧
      (now < (r.mem p).startTime → (r.mem p).startTime - now < 2 ^ 31 →
        r.tnext = (((r.mem p).startTime - now : Nat) : Int) ∧ 0 < r.tnext) ∧
      ((r.mem p).startTime ≤ now → now - (r.mem p).startTime ≤ 2 ^ 31 →
        r.tnext = -((now - (r.mem p).startTime : Nat) : Int) ∧ r.tnext ≤ 0) := by
  obtain ⟨p, hp, ht⟩ := loopPolling_tnext hr
  refine ⟨p, hp, fun h1 h2 => ?_, fun h1 h2 => ?_⟩
  · rw [ht, tnextOf_pos h1 h2]
    exact ⟨rfl, by omega⟩
  · rw [ht]
    by_cases h3 : (r.mem p).startTime = now
    · rw [h3, tnextOf_self]
      simp
    · rw [tnextOf_neg (by omega) h2]
      exact ⟨rfl, by omega⟩

/-- Witness of C18: one tracked task, DELETED and due since 100, polled at clock 150; the
poll removes it and returns `-50`, computed from the slot it leaves behind. -/
theorem loopPolling_value_witness :
    ∃ p, head (⟨[some 0], 0, 1, -50⟩ : Polling) = .ok p ∧
      (150 < (wasteMem p).startTime → (wasteMem p).startTime - 150 < 2 ^ 31 →
        (-50 : Int) = (((wasteMem p).startTime - 150 : Nat) : Int) ∧ 0 < (-50 : Int)) ∧
      ((wasteMem p).startTime ≤ 150 → 150 - (wasteMem p).startTime ≤ 2 ^ 31 →
        (-50 : Int) = -((150 - (wasteMem p).startTime : Nat) : Int) ∧ (-50 : Int) ≤ 0) :=
  loopPolling_value idle 5 150 ⟨[some 0], 1, 1, -100000⟩ wasteMem
    ⟨⟨[some 0], 0, 1, -50⟩, wasteMem, -50⟩ rfl

/-- C18 (counterexample): a head with `startTime = 4294967295` polled at clock 0 is not
due, and the poll returns `-1`, not the positive `4294967295`; and the value computed for
a head with `startTime = 0` at clock `4294967295`, overdue by `4294967295`, is `1`. -/
theorem sign_flips_beyond_half_range :
    ∃ r, loopPolling idle 0 0 ⟨[some 0], 1, 1, -100000⟩ lastMem = ([], .ok r) ∧
      head r.self = .ok 0 ∧ 0 < (r.mem 0).startTime ∧ (r.mem 0).startTime < ULONG ∧
      r.tnext = -1 ∧ tnextOf 0 4294967295 = 1 :=
  ⟨_, rfl, rfl, by decide, by decide, by decide, by decide⟩

/-- The descriptor of the head when the callback has returned, with callbacks that leave
the task variables alone: only a one-shot status has changed. -/
theorem called_fields {code : Code} (hcode : ∀ f m, code f m = m) (mem : Mem)
    (h q : _task_ptr) :
    (called code mem h q).period = (mem q).period ∧
      (called code mem h q).fLoop = (mem q).fLoop ∧
      (called code mem h q).startTime = (mem q).startTime ∧
      (q ≠ h → called code mem h q = mem q) := by
  cases hs : (mem h).status with
  | WAITING => simp only [called, hs, and_self, implies_true]
  | RUNNING => simp only [called, hs, hcode, and_self, implies_true]
  | ONTIME => simp only [called, hs, hcode, and_self, implies_true]
  | DELETED => simp only [called, hs, and_self, implies_true]
  | ONESHOOT =>
    by_cases hq : q = h
    · subst hq
      simp only [called, hs, hcode, write, if_true, and_self, ne_eq, not_true_eq_false,
        false_implies]
    · simp only [called, hs, hcode, write, if_neg hq, and_self, implies_true]


/-- C20: for every `loopPolling()` call with callbacks that do not change task
descriptors, when the call returns: no task has its `period` or callback changed, every
task other than the head `h` of before the call is unchanged, and the status of `h` is
unchanged or went from ONESHOOT to WAITING, so that the only fields that can differ are
`startTime` and `status` of `h`. The call does return from a well-formed table with head
`h` when `h` is not due, or is DELETED, or has a positive period whose fast-forward does
not wrap. -/
theorem loopPolling_frame (code : Code) (hcode : ∀ f m, code f m = m) (fuel now : Nat)
    (self : Polling) (mem : Mem) (h : _task_ptr) (hh : head self = .ok h) :
    (∀ r, (loopPolling code fuel now self mem).2 = .ok r →
      (∀ q, (r.mem q).period = (mem q).period ∧ (r.mem q).fLoop = (mem q).fLoop) ∧
      (∀ q, q ≠ h → r.mem q = mem q) ∧
      ((r.mem h).status = (mem h).status ∨
        ((mem h).status = .ONESHOOT ∧ (r.mem h).status = .WAITING))) ∧
    (WF self → 0 < self._size → now + 2 ≤ fuel →
      (now < (mem h).startTime ∨ (mem h).status = .DELETED ∨
        (0 < (mem h).period ∧ now + (mem h).period < ULONG)) →
      ∃ r, (loopPolling code fuel now self mem).2 = .ok r) := by
  constructor
  · intro r hr
    refine ⟨?_, ?_, poll_status hcode hr h⟩
    · intro q
      by_cases hd : (mem h).startTime ≤ now
      · by_cases hs : (mem h).status = .DELETED
        · rw [loopPolling_deleted_eq hh hd hs] at hr
          obtain ⟨s', hs'⟩ := pollDelete_inv hr
          rw [(pollSort_inv hs').1]
          exact ⟨rfl, rfl⟩
        · obtain ⟨t, ht, hmem, _⟩ := loopPolling_adjust_inv hh hd hs hr
          obtain ⟨hc1, hc2, _, _⟩ := called_fields hcode mem h q
          obtain ⟨ht1, ht2, _, _⟩ := adjustTime_fields now fuel _ _ ht
          rw [hmem]
          unfold write
          by_cases hq : q = h
          · subst hq
            simp only [if_true]
            exact ⟨by rw [ht1, hc1], by rw [ht2, hc2]⟩
          · simp only [if_neg hq]
            exact ⟨hc1, hc2⟩
      · rw [loopPolling_not_due_eq hh (by omega)] at hr
        cases hr
        exact ⟨rfl, rfl⟩
    · intro q hq
      by_cases hd : (mem h).startTime ≤ now
      · by_cases hs : (mem h).status = .DELETED
        · rw [loopPolling_deleted_eq hh hd hs] at hr
          obtain ⟨s', hs'⟩ := pollDelete_inv hr
          rw [(pollSort_inv hs').1]
        · obtain ⟨t, _, hmem, _⟩ := loopPolling_adjust_inv hh hd hs hr
          rw [hmem]
          simp only [write, if_neg hq]
          exact (called_fields hcode mem h q).2.2.2 hq
      · rw [loopPolling_not_due_eq hh (by omega)] at hr
        cases hr
        rfl
  · intro hwf hsz hfuel hcase
    obtain ⟨ps, ha⟩ := WF_active hwf
    by_cases hd : (mem h).startTime ≤ now
    · by_cases hs : (mem h).status = .DELETED
      · cases ps with
        | nil =>
          have := active_length hwf ha
          simp only [List.length_nil] at this
          omega
        | cons p ps =>
          have hp := head_of_active ha
          rw [hh] at hp
          cases hp
          obtain ⟨r, _, _, hr, _⟩ := pollDelete_ok now mem hwf ha
          exact ⟨r, by rw [loopPolling_deleted_eq hh hd hs, hr]⟩
      · rcases hcase with hc | hc | ⟨hp, hov⟩
        · omega
        · exact absurd hc hs
        · obtain ⟨hc1, _, hc3, _⟩ := called_fields hcode mem h h
          have hadj := adjustTime_eq now fuel (called code mem h h) (by rw [hc1]; exact hp)
            (by rw [hc1, hc3]; exact no_wrap_of_le hp hov) (by omega) (by omega)
          obtain ⟨r, _, hr, _⟩ := pollSort_ok now
            (write (called code mem h) h _) hwf ha hh
          refine ⟨r, ?_⟩
          have key : (loopPolling code fuel now self mem).2 =
              pollAdjust fuel now self (called code mem h) := by
            cases hst : (mem h).status with
            | DELETED => exact absurd hst hs
            | WAITING =>
              rw [loopPolling_waiting_eq hh hd hst]
              simp only [called, hst]
            | RUNNING => rw [loopPolling_fire_eq hh hd (Or.inl hst)]
            | ONTIME => rw [loopPolling_fire_eq hh hd (Or.inr (Or.inl hst))]
            | ONESHOOT => rw [loopPolling_fire_eq hh hd (Or.inr (Or.inr hst))]
          rw [key, pollAdjust_eq (called code mem h) hh hadj]
          exact hr
    · exact ⟨_, by rw [loopPolling_not_due_eq hh (by omega)]⟩

/-- Witness of C20: a one-shot head, due at clock 100, is fired and left WAITING. -/
theorem loopPolling_frame_witness :
    head (⟨[some 0, some 1], 2, 2, -100000⟩ : Polling) = .ok 0 ∧
    ∃ r, (loopPolling idle 102 100 ⟨[some 0, some 1], 2, 2, -100000⟩ shotMem).2 = .ok r :=
  ⟨rfl, (loopPolling_frame idle (fun _ _ => rfl) 102 100 ⟨[some 0, some 1], 2, 2, -100000⟩
    shotMem 0 rfl).2 (by decide) (by decide) (by decide)
    (Or.inr (Or.inr ⟨by decide, by decide⟩))⟩

end PollingLib
